import Mathlib

/-!
# Verification of the article repair / length-normalization engine

Shallow embedding of `scripts/article_generator.py`, `scripts/utils/sections.py`
and `scripts/quality_gate.py` (Go-555/github-actions-note).

Modelling conventions:
* Python strings are `List Char`; `str.strip` / `lstrip` / `rstrip` use the
  Unicode whitespace predicate `isSpc` below (the code points Python treats as
  whitespace).  `str.splitlines` is modelled as splitting on `'\n'`; every call
  site in the source first strips its input, so trailing-newline behaviour and
  exotic line separators do not arise.
* Python `len`, slicing `s[:k]`, `str.rfind`, `max`/`min` and `//` map to
  `List.length`, `List.take`, `rfindSeq`/`rfindChar`, `max`/`min` and `/` on
  `Nat`; the configured character bounds are nonnegative integers, modelled as
  `Nat`.
* `unicodedata.normalize("NFKC", ·)` is an external library function; it is
  modelled as an arbitrary character-wise substitution `nf : Char → List Char`
  applied with `flatMap` (theorems that need idempotence of NFKC take it as a
  hypothesis).
* The generative-model collaborator is external; it enters as an oracle
  parameter.  Logging and debug-file side effects are dropped; raised
  `ValueError`s become `Except.error`.
-/

set_option maxRecDepth 10000

/-- Unicode code points accepted by Python's `str.isspace` / stripped by
`str.strip()`. -/
def isSpc (c : Char) : Bool :=
  decide ((9 ≤ c.toNat ∧ c.toNat ≤ 13) ∨ c.toNat = 32 ∨ (28 ≤ c.toNat ∧ c.toNat ≤ 31) ∨
    c.toNat = 133 ∨ c.toNat = 160 ∨ c.toNat = 5760 ∨ (8192 ≤ c.toNat ∧ c.toNat ≤ 8202) ∨
    c.toNat = 8232 ∨ c.toNat = 8233 ∨ c.toNat = 8239 ∨ c.toNat = 8287 ∨ c.toNat = 12288)

/-- Python `str.lstrip()`. -/
def lstrip (l : List Char) : List Char := l.dropWhile isSpc

/-- Python `str.rstrip()`. -/
def rstrip (l : List Char) : List Char := (l.reverse.dropWhile isSpc).reverse

/-- Python `str.strip()`. -/
def pstrip (l : List Char) : List Char := lstrip (rstrip l)

/-- Python `str.rstrip("、")` (used by `_truncate_text`). -/
def rstripComma (l : List Char) : List Char :=
  (l.reverse.dropWhile (fun c => c == '、')).reverse

/-- Python `sep.join(parts)`. -/
def joinSep (sep : List Char) : List (List Char) → List Char
  | [] => []
  | [a] => a
  | a :: b :: t => a ++ sep ++ joinSep sep (b :: t)

/-- Split a character list at every occurrence of `sep` (Python
`str.splitlines` on already-stripped text, and the line structure used by
`"\n".join`). -/
def splitChar (sep : Char) : List Char → List (List Char)
  | [] => [[]]
  | a :: rest =>
    match splitChar sep rest with
    | [] => [[]]
    | h :: t => if a = sep then [] :: h :: t else (a :: h) :: t

/-- Python substring test `pat in l` (note `"" in s` is `True`). -/
def isSub (pat : List Char) : List Char → Bool
  | [] => pat.isEmpty
  | c :: rest => pat.isPrefixOf (c :: rest) || isSub pat rest

/-- `pat` occurs in `l` starting at index `i`. -/
def occursAt (pat l : List Char) (i : Nat) : Prop := pat <+: l.drop i

instance (pat l : List Char) (i : Nat) : Decidable (occursAt pat l i) := by
  unfold occursAt; infer_instance

/-- Python `str.rfind(pat)` for nonempty `pat`: index of the last occurrence,
`none` when absent (Python's `-1`). -/
def rfindSeq (pat l : List Char) : Option Nat :=
  ((List.range (l.length + 1)).filter (fun i => decide (occursAt pat l i))).getLast?

/-- Python `str.rfind(c)` for a single character. -/
def rfindChar (c : Char) (l : List Char) : Option Nat := rfindSeq [c] l

/-- Helper for `countSeq`: `cool` counts characters still covered by the last
match (so matches never overlap, as with Python `str.count`). -/
def countSeqGo (p : Char) (ps : List Char) : Nat → List Char → Nat
  | _, [] => 0
  | n + 1, _ :: rest => countSeqGo p ps n rest
  | 0, c :: rest =>
    if (p :: ps).isPrefixOf (c :: rest) then countSeqGo p ps ps.length rest + 1
    else countSeqGo p ps 0 rest

/-- Python `str.count(pat)` for nonempty `pat = p :: ps` (non-overlapping,
left to right); used for counting code fences. -/
def countSeq (p : Char) (ps : List Char) (l : List Char) : Nat :=
  countSeqGo p ps 0 l

/-- Sentence-terminal characters of the regex class `[。．？！!?]` in
`_split_sentences`. -/
def isTermChar (c : Char) : Bool :=
  c == '。' || c == '．' || c == '？' || c == '！' || c == '!' || c == '?'

/-- Core of `re.split(r"(?<=[。．？！!?])\s+", text)` as a left-to-right
scanner.  `acc` holds the current piece reversed, `out` the pieces emitted so
far (reversed); `skip` is true while inside a separator match, whose `\s+`
greedily consumes the whole whitespace run.  A match starts at a whitespace
character whose predecessor (the head of `acc`) is sentence-terminal. -/
def split_sentences_go : Bool → List (List Char) → List Char → List Char →
    List (List Char)
  | _, out, acc, [] => (acc.reverse :: out).reverse
  | skip, out, acc, c :: rest =>
    if skip && isSpc c then split_sentences_go true out acc rest
    else if (match acc with | p :: _ => isTermChar p | [] => false) && isSpc c then
      split_sentences_go true (acc.reverse :: out) [] rest
    else
      split_sentences_go false out (c :: acc) rest

/-- `ArticleGenerator._split_sentences`: split at sentence-terminal
punctuation followed by whitespace, keeping only non-blank pieces. -/
def split_sentences (text : List Char) : List (List Char) :=
  (split_sentences_go false [] [] text).filter (fun s => !(pstrip s).isEmpty)

/-- The `re.match(r"\d+\.\s", stripped)` test of `_is_bullet_block`. -/
def matchesNumbered (s : List Char) : Bool :=
  let ds := s.takeWhile Char.isDigit
  !ds.isEmpty &&
    (match s.drop ds.length with
     | c :: d :: _ => c == '.' && isSpc d
     | _ => false)

/-- A line opens with one of the bullet markers `-`, `*`, `+`, `・`. -/
def startsBullet (s : List Char) : Bool :=
  match s with
  | c :: _ => c == '-' || c == '*' || c == '+' || c == '・'
  | [] => false

/-- `ArticleGenerator._is_bullet_block`. -/
def is_bullet_block (text : List Char) : Bool :=
  let lines := (splitChar '\n' text).filter (fun l => !(pstrip l).isEmpty)
  !lines.isEmpty && lines.all (fun line =>
    startsBullet (lstrip line) || matchesNumbered (lstrip line))

/-- `ArticleGenerator._truncate_text`. -/
def truncate_text (text : List Char) (limit : Nat) : List Char :=
  if limit = 0 then []
  else if text.length ≤ limit then text
  else
    let truncated := text.take limit
    match ['。', '．', '！', '？', '!', '?'].findSome? (fun p =>
      match rfindChar p truncated with
      | some idx => if limit / 2 ≤ idx then some (idx + 1) else none
      | none => none) with
    | some k => truncated.take k
    | none =>
      match rfindChar '、' truncated with
      | some ci =>
        if limit / 2 ≤ ci then rstripComma (truncated.take ci) else rstrip truncated
      | none => rstrip truncated

/-- The bullet-block loop of `_trim_paragraph_to`: keep whole lines while the
running total of line lengths stays within `target`; blank lines are carried
along (uncounted) once a line has been kept. -/
def bullet_trim_go (target : Nat) : List (List Char) → Nat → List (List Char) →
    List (List Char)
  | acc, _, [] => acc
  | acc, total, line :: rest =>
    if (pstrip line).isEmpty then
      if acc.isEmpty then bullet_trim_go target acc total rest
      else bullet_trim_go target (acc ++ [line]) total rest
    else
      if !acc.isEmpty && decide (target < total + line.length) then acc
      else
        if target ≤ total + line.length then acc ++ [line]
        else bullet_trim_go target (acc ++ [line]) (total + line.length) rest

/-- The sentence-accumulation loop of `_trim_paragraph_to` (`idx` is the
`enumerate` index; the loop stops once the running total reaches the target,
except at index 0). -/
def sentence_accum (target : Nat) : Nat → Nat → List (List Char) →
    List (List Char)
  | _, _, [] => []
  | idx, total, s :: rest =>
    if pstrip s = [] then sentence_accum target (idx + 1) total rest
    else
      if target ≤ total + (pstrip s).length ∧ idx ≠ 0 then [pstrip s]
      else pstrip s :: sentence_accum target (idx + 1) (total + (pstrip s).length) rest

/-- `ArticleGenerator._trim_paragraph_to`.  The Python `target_len <= 0` guard
collapses to `target = 0` over `Nat`. -/
def trim_paragraph_to (paragraph : List Char) (target : Nat) : List Char :=
  let text := pstrip paragraph
  if text = [] then text
  else if target = 0 then []
  else if text.length ≤ target then text
  else if is_bullet_block text then
    pstrip (joinSep ['\n'] (bullet_trim_go target [] 0 (splitChar '\n' text)))
  else
    match split_sentences text with
    | [] => truncate_text text target
    | s0 :: srest =>
      let cand := pstrip (sentence_accum target 0 0 (s0 :: srest)).flatten
      let cand := if cand = [] then pstrip s0 else cand
      if target < cand.length then truncate_text cand target else cand

/-! ## Document splitter / composer (`_split_into_units`, `_compose_from_units`) -/

/-- The `SectionBlock` dataclass: an H2 heading plus its paragraphs. -/
structure SectionBlock where
  heading : List Char
  paragraphs : List (List Char)
deriving DecidableEq

/-- The heading test of `_split_into_units`: after `lstrip`, the line starts
with `##` but not `###`. -/
def isH2 (stripped : List Char) : Bool :=
  "##".data.isPrefixOf stripped && !("###".data.isPrefixOf stripped)

/-- Scanner state of `_split_into_units`: collected preface paragraphs, the
sections so far (in reverse, head = the currently open section), and the
buffered lines of the paragraph being read. -/
structure SplitSt where
  pre : List (List Char)
  secsR : List SectionBlock
  buf : List (List Char)
deriving DecidableEq

/-- The nested `flush_buffer` of `_split_into_units`. -/
def splitFlush (st : SplitSt) : SplitSt :=
  let par := pstrip (joinSep ['\n'] st.buf)
  if par = [] then { st with buf := [] }
  else
    match st.secsR with
    | [] => { pre := st.pre ++ [par], secsR := [], buf := [] }
    | s :: rest =>
      { st with secsR := { s with paragraphs := s.paragraphs ++ [par] } :: rest,
                buf := [] }

/-- The line loop of `_split_into_units`. -/
def splitGo : List (List Char) → SplitSt → SplitSt
  | [], st => splitFlush st
  | line :: rest, st =>
    let stripped := lstrip line
    if isH2 stripped then
      let st1 := splitFlush st
      let hb := lstrip (stripped.drop 2)
      let ht := if hb = [] then "##".data else "## ".data ++ hb
      splitGo rest { st1 with secsR := ⟨ht, []⟩ :: st1.secsR }
    else if stripped = [] then splitGo rest (splitFlush st)
    else splitGo rest { st with buf := st.buf ++ [line] }

/-- `ArticleGenerator._split_into_units`. -/
def split_into_units (text : List Char) : List (List Char) × List SectionBlock :=
  let st := splitGo (splitChar '\n' (pstrip text)) ⟨[], [], []⟩
  (st.pre, st.secsR.reverse)

/-- `ArticleGenerator._compose_from_units`: preface paragraphs, then each
heading followed by its paragraphs, joined by blank lines and stripped. -/
def compose_from_units (pre : List (List Char)) (secs : List SectionBlock) :
    List Char :=
  pstrip (joinSep "\n\n".data
    (pre ++ secs.flatMap (fun s => s.heading :: s.paragraphs)))

/-! ## Length normalizer (`_enforce_length`) -/

/-- The configuration fields of `GeneratorSettings` that the repair pipeline
reads (`settings.article.*` plus `settings.quality_gate.reject_phrases`, the
attribute the healer dereferences). -/
structure Cfg where
  min_chars : Nat
  max_chars : Nat
  lead_min_chars : Nat
  required_sections : List (List Char)
  reject_phrases : List (List Char)
deriving DecidableEq

/-- `ArticleGenerator._section_min_length`. -/
def section_min_length (cfg : Cfg) : Nat :=
  max 120 (cfg.min_chars / (max cfg.required_sections.length 1 * 3))

/-- `ArticleGenerator._lead_min_length`. -/
def lead_min_length (cfg : Cfg) : Nat := max cfg.lead_min_chars 80

/-- State of the two shrink loops of `_enforce_length`. -/
structure DState where
  pre : List (List Char)
  secs : List SectionBlock
  cur : List Char
deriving DecidableEq

/-- Total number of paragraphs (used to bound the paragraph-drop loop, which
removes one paragraph per iteration). -/
def totalParas (pre : List (List Char)) (secs : List SectionBlock) : Nat :=
  pre.length + (secs.map (fun s => s.paragraphs.length)).sum

/-- One `for section in reversed(sections)` pass of the paragraph-drop stage:
try to pop the last paragraph of the latest section that still has at least
two, committing only if the recomposed document stays at or above
`min_chars`; `before` carries the sections preceding the current suffix so
that candidates can be recomposed. -/
def try_drop_section (cfg : Cfg) (pre : List (List Char)) :
    List SectionBlock → List SectionBlock → Option (List SectionBlock)
  | _, [] => none
  | before, s :: rest =>
    match try_drop_section cfg pre (before ++ [s]) rest with
    | some rest' => some (s :: rest')
    | none =>
      if 2 ≤ s.paragraphs.length then
        if cfg.min_chars ≤ (compose_from_units pre
            (before ++ ⟨s.heading, s.paragraphs.dropLast⟩ :: rest)).length then
          some (⟨s.heading, s.paragraphs.dropLast⟩ :: rest)
        else none
      else none

/-- The paragraph-drop `while` loop of `_enforce_length` (lines 171-192).  The
Python loop is unbounded but removes one paragraph per iteration; it is run
here with fuel `totalParas + 1`, which the loop can never exhaust. -/
def drop_loop (cfg : Cfg) : Nat → DState → DState
  | 0, st => st
  | fuel + 1, st =>
    if st.cur.length ≤ cfg.max_chars then st
    else
      match try_drop_section cfg st.pre [] st.secs with
      | some secs' => drop_loop cfg fuel ⟨st.pre, secs', compose_from_units st.pre secs'⟩
      | none =>
        if 2 ≤ st.pre.length then
          if cfg.min_chars ≤ (compose_from_units st.pre.dropLast st.secs).length then
            drop_loop cfg fuel
              ⟨st.pre.dropLast, st.secs, compose_from_units st.pre.dropLast st.secs⟩
          else st
        else st

/-- One `for section in reversed(sections)` pass of the soft-trim stage: trim
the last paragraph of the latest section that can shrink (cap `excess`, floor
`smin`), committing the first actual change. -/
def try_soft_section (excess smin : Nat) : List SectionBlock → Option (List SectionBlock)
  | [] => none
  | s :: rest =>
    match try_soft_section excess smin rest with
    | some rest' => some (s :: rest')
    | none =>
      match s.paragraphs.getLast? with
      | none => none
      | some p =>
        if p.length - smin = 0 then none
        else
          let reduceBy := min excess (p.length - smin)
          let target := max (p.length - reduceBy) smin
          if p.length ≤ target then none
          else
            let np := trim_paragraph_to p target
            if np = p then none
            else some (⟨s.heading, s.paragraphs.dropLast ++ [np]⟩ :: rest)

/-- The guarded soft-trim `while` loop of `_enforce_length` (lines 194-235);
the Python guard allows at most 100 iterations. -/
def soft_loop (cfg : Cfg) : Nat → DState → DState
  | 0, st => st
  | guard + 1, st =>
    if st.cur.length ≤ cfg.max_chars then st
    else
      let excess := st.cur.length - cfg.max_chars
      let smin := section_min_length cfg
      match try_soft_section excess smin st.secs with
      | some secs' => soft_loop cfg guard ⟨st.pre, secs', compose_from_units st.pre secs'⟩
      | none =>
        match st.pre.getLast? with
        | none => st
        | some p =>
          let lmin := lead_min_length cfg
          if p.length - lmin = 0 then st
          else
            let reduceBy := min (st.cur.length - cfg.max_chars) (p.length - lmin)
            let target := max (p.length - reduceBy) lmin
            if p.length ≤ target then st
            else
              let np := trim_paragraph_to p target
              if np = p then st
              else
                let pre' := st.pre.dropLast ++ [np]
                soft_loop cfg guard ⟨pre', st.secs, compose_from_units pre' st.secs⟩

/-- The fallback hard cut of `_enforce_length` (lines 237-244): cut at
`max_chars`, move back to the last blank-line boundary if it sits at or past
`min_chars` (Python's `cutoff >= min_len`, with `rfind`'s `-1` falling to the
plain cut), and right-strip. -/
def fallback_cut (cfg : Cfg) (current : List Char) : List Char :=
  if cfg.max_chars < current.length then
    match rfindSeq ['\n', '\n'] (current.take cfg.max_chars) with
    | some cutoff =>
      if cfg.min_chars ≤ cutoff then rstrip ((current.take cfg.max_chars).take cutoff)
      else rstrip (current.take cfg.max_chars)
    | none => rstrip (current.take cfg.max_chars)
  else current

/-- `ArticleGenerator._enforce_length` (warnings and logging dropped). -/
def enforce_length (cfg : Cfg) (text : List Char) : List Char :=
  let body := pstrip text
  if body = [] then body
  else if body.length ≤ cfg.max_chars then body
  else
    let u := split_into_units body
    if u.2 = [] then trim_paragraph_to body cfg.max_chars
    else
      let current := compose_from_units u.1 u.2
      let st1 := drop_loop cfg (totalParas u.1 u.2 + 1) ⟨u.1, u.2, current⟩
      let st2 := soft_loop cfg 100 st1
      fallback_cut cfg st2.cur

/-- `ArticleGenerator._ensure_balanced_fences`. -/
def ensure_balanced_fences (body : List Char) : List Char :=
  let fence := "```".data
  let cnt := match fence with | p :: ps => countSeq p ps body | [] => 0
  if cnt % 2 = 0 then body else rstrip body ++ "\n```\n".data

/-! ## Section matcher (`scripts/utils/sections.py`) -/

/-- `unicodedata.normalize("NFKC", ·)` modelled as a character-wise
substitution `nf` (see the header); `pnorm nf` plays the role of
`sections.normalize`. -/
def pnorm (nf : Char → List Char) (l : List Char) : List Char := l.flatMap nf

/-- The identity substitution: a valid reading of NFKC on text that contains
no compatibility characters (used for concrete instances). -/
def nfId : Char → List Char := fun c => [c]

/-- The `SECTION_ALIASES` table of `scripts/utils/sections.py`. -/
def SECTION_ALIASES : List (List Char × List (List Char)) :=
  [("背景と課題".data, ["背景と課題".data, "背景".data, "課題".data]),
   ("結論（先出し）".data, ["結論（先出し）".data, "結論".data, "結論まとめ".data]),
   ("手順".data, ["手順".data, "ステップ".data, "実行手順".data]),
   ("よくある失敗と対策".data,
    ["よくある失敗と対策".data, "失敗と対策".data, "失敗例".data, "注意点".data]),
   ("事例・効果".data, ["事例・効果".data, "事例".data, "成功事例".data, "効果".data]),
   ("まとめ（CTA)".data, ["まとめ（CTA)".data, "まとめ".data, "次のアクション".data, "CTA".data]),
   ("参考リンク".data, ["参考リンク".data, "参考資料".data, "リソース".data])]

/-- `sections.iter_section_variants`: the label itself, then its registered
aliases. -/
def iter_section_variants (sec : List Char) : List (List Char) :=
  sec :: (match SECTION_ALIASES.find? (fun p => p.1 == sec) with
          | some p => p.2
          | none => [])

/-- `sections.section_present`. -/
def section_present (nf : Char → List Char) (body sec : List Char) : Bool :=
  let nbody := pnorm nf body
  (iter_section_variants sec).any (fun v =>
    let nv := pnorm nf v
    !nv.isEmpty && (isSub nv nbody || isSub (pnorm nf ("## ".data ++ v)) nbody))

/-- `sections.find_best_match`. -/
def find_best_match (nf : Char → List Char) (heading : List Char)
    (candidates : List (List Char)) : Option (List Char) :=
  let nh := pnorm nf heading
  candidates.find? (fun c =>
    (iter_section_variants c).any (fun a => isSub (pnorm nf a) nh))

/-! ## Section healer (`_ensure_sections_present` and helpers) -/

/-- `ArticleGenerator._normalize_heading`: drop leading `#` markers, then
strip. -/
def normalize_heading (heading : List Char) : List Char :=
  pstrip (heading.dropWhile (fun c => c == '#'))

/-- `ArticleGenerator._section_keywords`. -/
def section_keywords (sec : List Char) : List (List Char) :=
  let variants := (iter_section_variants sec).filter (fun v => !v.isEmpty)
  if !variants.isEmpty then variants
  else sec :: (if sec.contains '・' then splitChar '・' sec else [])

/-- The heading search of `_attempt_canonicalize_sections` for one target
label: first an alias match through `find_best_match` (which re-normalizes the
already normalized heading, as the code does), then the all-keywords fallback
(raw keywords against the normalized heading). -/
def findMatchIdx (nf : Char → List Char) (secs : List SectionBlock)
    (remaining : List Nat) (secName : List Char) : Option Nat :=
  match remaining.find? (fun idx =>
      match secs[idx]? with
      | some sb =>
        (find_best_match nf (pnorm nf (normalize_heading sb.heading)) [secName]).isSome
      | none => false) with
  | some idx => some idx
  | none =>
    let kws := section_keywords secName
    remaining.find? (fun idx =>
      match secs[idx]? with
      | some sb =>
        kws.all (fun kw => !kw.isEmpty && isSub kw (pnorm nf (normalize_heading sb.heading)))
      | none => false)

/-- The matching loop of `_attempt_canonicalize_sections`: each heading is
consumed by at most one target label. -/
def canonMatches (nf : Char → List Char) (secs : List SectionBlock) :
    List (List Char) → List Nat → List ((List Char) × Nat)
  | [], _ => []
  | t :: ts, remaining =>
    match findMatchIdx nf secs remaining t with
    | some idx => (t, idx) :: canonMatches nf secs ts (remaining.erase idx)
    | none => canonMatches nf secs ts remaining

/-- The rewriting loop of `_attempt_canonicalize_sections`: relabel each
matched heading to `"## " + label` when it differs after normalization; the
Bool records Python's `updated` flag. -/
def applyCanon (nf : Char → List Char) : List ((List Char) × Nat) →
    List SectionBlock → Bool → List SectionBlock × Bool
  | [], secs, upd => (secs, upd)
  | (name, idx) :: rest, secs, upd =>
    match secs[idx]? with
    | none => applyCanon nf rest secs upd
    | some sb =>
      if pnorm nf name ≠ pnorm nf (normalize_heading sb.heading) then
        applyCanon nf rest (secs.set idx ⟨"## ".data ++ name, sb.paragraphs⟩) true
      else applyCanon nf rest secs upd

/-- `ArticleGenerator._attempt_canonicalize_sections`, returning
`(text, normalized_text, remaining_missing)`. -/
def attempt_canonicalize_sections (nf : Char → List Char) (text : List Char)
    (missing targets : List (List Char)) :
    List Char × List Char × List (List Char) :=
  if text = [] then (text, pnorm nf text, missing)
  else
    let u := split_into_units text
    let ms := canonMatches nf u.2 targets (List.range u.2.length)
    let su := applyCanon nf ms u.2 false
    let text' := if su.2 then compose_from_units u.1 su.1 else text
    let ntext := pnorm nf text'
    (text', ntext, targets.filter (fun s => !(section_present nf ntext s)))

/-- The model collaborator behind `_generate_section_addendum`: given the
missing label and current document it yields the extracted response text, or
an error for an exception during the call. -/
def Oracle : Type := List Char → List Char → Except Unit (List Char)

/-- `ArticleGenerator._fallback_section_content` (`summary` is
`plan.get("summary") or ""`). -/
def fallback_section_content (sec kw summary : List Char) : List Char :=
  if sec = "まとめ（CTA)".data then
    let lines : List (List Char) :=
      ["## まとめ（CTA)".data,
       "GitHub Actionsを活用したnote運用の自動化は、".data ++ kw ++
         "に限らず多くのメディア運営ですぐに始められる改善施策です。定型作業を仕組み化し、創造的な企画や分析に時間を再配分できれば、読者へ届けられる価値は飛躍的に向上します。".data,
       "- まずは既存の投稿プロセスを洗い出し、フローごとに自動化できるタスクを棚卸ししましょう。".data,
       "- GitHubリポジトリで記事を一元管理し、Pull Requestベースでレビューと公開を回す体制を整備してください。".data,
       "- 公開後のSNS告知やバックアップなどもワークフローに組み込み、定常運用を仕組み化しましょう。".data,
       "これらを段階的に導入することで、スタッフの稼働を抑えつつ更新頻度と品質を両立できます。今日から着手できる項目を一つ選び、実際にPlaybookを作りはじめてください。".data]
    let lines := if summary ≠ [] then
        lines.take 1 ++ [pstrip summary] ++ lines.drop 1
      else lines
    joinSep "\n\n".data lines
  else if sec = "参考リンク".data then
    joinSep ['\n']
      ["## 参考リンク".data,
       "- [GitHub Actions 公式ドキュメント](https://docs.github.com/ja/actions) — ワークフロー構文や実行環境の最新情報を網羅。".data,
       "- [GitHub Actions 入門 (Qiitaタグ)](https://qiita.com/tags/github-actions) — 国内エンジニアによる実践的な知見やトラブルシューティングを随時更新。".data,
       "- [Zenn: GitHub Actions 記事一覧](https://zenn.dev/topics/github-actions) — 最新トレンドやベストプラクティスを日本語で学べる技術メディア。".data,
       "- [note公式マガジン『noteの使い方』](https://note.com/notemag/m/m63f63c0d19df) — note運用のコツや最新のUI変更をキャッチアップ。".data]
  else
    let dflt : List Char :=
      if sec = "背景と課題".data then
        "生成AIの導入を検討する企業では、最新トレンドを追い切れずに投資判断が停滞したり、現場での運用体制が整わず成果が曖昧になるケースが目立ちます。効果検証の指標やガバナンス体制が先送りになると、PoC止まりで終わるリスクが高まる点が共通課題です。".data
      else if sec = "結論（先出し）".data then
        "生成AI活用を成功させるには、情報収集・事例学習・リスク管理の3点を仕組み化し、社内の意思決定をスピードアップさせることが最優先です。GitHub Actionsのような自動化基盤を使って“調査→生成→公開→検証”のループを短周期で回すことが成果への近道になります。".data
      else if sec = "手順".data then
        "1. 最新ニュースと法規制をウォッチし、社内で共有する定例フォーマットを整備。\n2. 既存業務の中から生成AIが効果を出しやすい反復タスクを特定し、ワークフロー化。\n3. ログ保全と人間レビューの体制を整えたうえで小規模に実装し、効果測定と改善を繰り返す。".data
      else if sec = "よくある失敗と対策".data then
        "・社内データの扱いを曖昧にしたまま試行する —— 導入前にデータ分類と持ち出しルールを整理し、社内合意を得る。\n・期待値だけが先行してPoCが乱立する —— KPIや意思決定ポイントを定義し、フェーズゲートで継続可否を判断する。\n・ハルシネーション対策が後手になる —— 一次情報の参照・引用ログを必ず保存し、人間が差分レビューできるダッシュボードを導入する。".data
      else if sec = "事例・効果".data then
        "国内では、営業メール自動作成に生成AIを組み込んだSaaS企業が返信率20%以上改善、金融機関がFAQ生成を自動化して回答時間を半減するなど、実務での成果が多数報告されています。定量効果（工数削減・リード獲得）と定性効果（知見共有・意思決定スピード）を両面で計測することが成功ケースの共通点です。".data
      else []
    let paragraph :=
      if dflt ≠ [] then dflt
      else if summary ≠ [] then summary
      else kw ++ " に関する ".data ++ sec ++
        " のポイントを整理し、読者が次に取るべきアクションを簡潔に提示します。".data
    "## ".data ++ sec ++ '\n' :: pstrip paragraph

/-- The addendum obtained for one missing section in
`_fill_missing_sections`: oracle output stripped, falling back to the
deterministic snippet on an exception or on empty output. -/
def addendum_for (oracle : Oracle) (sec cur kw summary : List Char) : List Char :=
  match oracle sec cur with
  | Except.error _ => fallback_section_content sec kw summary
  | Except.ok raw =>
    let a := pstrip raw
    if a = [] then pstrip (fallback_section_content sec kw summary) else a

/-- The appending loop of `_fill_missing_sections`. -/
def fill_missing_go (oracle : Oracle) (kw summary : List Char) :
    List (List Char) → List Char → List Char
  | [], updated => updated
  | sec :: rest, updated =>
    let addition := addendum_for oracle sec updated kw summary
    if addition = [] then fill_missing_go oracle kw summary rest updated
    else
      let addition :=
        if isSub ("## ".data ++ sec) addition then addition
        else "## ".data ++ sec ++ '\n' :: pstrip addition
      fill_missing_go oracle kw summary rest
        (rstrip updated ++ "\n\n".data ++ pstrip addition ++ ['\n'])

/-- `ArticleGenerator._fill_missing_sections`, returning
`(updated, normalized_text, remaining_missing)`. -/
def fill_missing_sections (nf : Char → List Char) (cfg : Cfg) (oracle : Oracle)
    (kw summary text ntext : List Char) (missing : List (List Char)) :
    List Char × List Char × List (List Char) :=
  if missing = [] then (text, ntext, missing)
  else
    let updated := fill_missing_go oracle kw summary missing text
    let ntext' := pnorm nf updated
    (updated, ntext',
     cfg.required_sections.filter (fun s => !(section_present nf ntext' s)))

/-- Errors raised by `_ensure_sections_present` (`ValueError`s in Python). -/
inductive HealErr
  | missingSections (missing : List (List Char))
  | rejectedPhrase (phrase : List Char)
deriving DecidableEq

/-- The rejected-phrase loop of `_ensure_sections_present`: the first phrase
hitting either the raw text or the normalized text (non-empty matches only). -/
def find_reject (nf : Char → List Char) (text ntext : List Char) :
    List (List Char) → Option (List Char)
  | [] => none
  | ph :: rest =>
    if ph ≠ [] ∧ isSub ph text then some ph
    else if pnorm nf ph ≠ [] ∧ isSub (pnorm nf ph) ntext then some ph
    else find_reject nf text ntext rest

/-- The healing stages of `_ensure_sections_present` before the error checks:
detect, canonicalize, then (when a model is available, `oracle ≠ none`)
regenerate.  Returns `(text, normalized_text, missing)` as of line 266. -/
def heal_stage (nf : Char → List Char) (cfg : Cfg) (oracle : Option Oracle)
    (kw summary text : List Char) : List Char × List Char × List (List Char) :=
  let ntext := pnorm nf text
  let missing := cfg.required_sections.filter (fun s => !(section_present nf ntext s))
  let r1 :=
    if missing ≠ [] then
      attempt_canonicalize_sections nf text missing cfg.required_sections
    else (text, ntext, missing)
  match oracle with
  | some orc =>
    if r1.2.2 ≠ [] then
      fill_missing_sections nf cfg orc kw summary r1.1 r1.2.1 r1.2.2
    else r1
  | none => r1

/-- `ArticleGenerator._ensure_sections_present` (debug-file persistence and
logging dropped; the two `raise ValueError` sites become the two `HealErr`
constructors). -/
def ensure_sections_present (nf : Char → List Char) (cfg : Cfg)
    (oracle : Option Oracle) (kw summary text : List Char) :
    Except HealErr (List Char) :=
  let h := heal_stage nf cfg oracle kw summary text
  if h.2.2 ≠ [] then Except.error (HealErr.missingSections h.2.2)
  else
    match find_reject nf h.1 h.2.1 cfg.reject_phrases with
    | some ph => Except.error (HealErr.rejectedPhrase ph)
    | none => Except.ok h.1

/-! ## Quality gate section check (`QualityGate._validate_sections`) -/

/-- `QualityGate._validate_sections`: only the canonical label and its `## `
heading form are consulted, never aliases. -/
def validate_sections (nf : Char → List Char) (required : List (List Char))
    (body : List Char) : Bool :=
  let nbody := pnorm nf body
  required.all (fun sec =>
    isSub (pnorm nf sec) nbody || isSub (pnorm nf ("## ".data ++ sec)) nbody)

/-! ## The pipeline (`ArticleGenerator.generate`, dry-run collaborator) -/

/-- The `GeneratedArticle` dataclass. -/
structure GeneratedArticle where
  lead : List Char
  sections : List (List Char)
  references : List (List Char)
  body_markdown : List Char
deriving DecidableEq

/-- `ArticleGenerator._dummy_body` (the deterministic dry-run body). -/
def dummy_body (cfg : Cfg) (kw : List Char) : List Char :=
  let filler :=
    "このセクションはドライラン用のダミー本文です。実運用ではここに最新情報、統計データ、実務で役立つノウハウが詳細に書き込まれます。テンプレートの長さを担保するために、ダミーテキストを複数段落にわたって繰り返し追加しています。".data
  let fillerParas := joinSep "\n\n".data [filler, filler, filler, filler, filler]
  let head : List (List Char) :=
    ['#' :: ' ' :: (kw ++ " の最新戦略".data), [],
     "リード文: このコンテンツは自動生成のドライランです。実運用では Gemini がここに実際の本文を生成します。".data, []]
  let secLines := cfg.required_sections.flatMap (fun s => ["## ".data ++ s, fillerParas, []])
  joinSep ['\n']
    (head ++ secLines ++ ["## 参考リンク".data, "- https://example.com".data])

/-- `ArticleGenerator.generate` in dry-run mode (no model: the body is the
deterministic dummy body and no regeneration oracle is available); the lead is
always set to the empty string. -/
def generate (nf : Char → List Char) (cfg : Cfg) (kw summary : List Char) :
    Except HealErr GeneratedArticle :=
  match ensure_sections_present nf cfg none kw summary (dummy_body cfg kw) with
  | Except.error e => Except.error e
  | Except.ok text' =>
    Except.ok ⟨[], cfg.required_sections, [],
      ensure_balanced_fences (enforce_length cfg text')⟩

/-! ## Basic lemmas about the string primitives -/

theorem isEmpty_false_of_ne {α : Type} {l : List α} (h : l ≠ []) : l.isEmpty = false := by
  cases l with
  | nil => exact absurd rfl h
  | cons a t => rfl

theorem isSub_iff (pat : List Char) : ∀ l : List Char, isSub pat l = true ↔ pat <:+: l := by
  intro l
  induction l with
  | nil =>
    simp only [isSub, List.isEmpty_iff, List.infix_nil]
  | cons c rest ih =>
    simp only [isSub, Bool.or_eq_true, List.isPrefixOf_iff_prefix, ih,
      List.infix_cons_iff]

theorem pnorm_mono (nf : Char → List Char) {a b : List Char} (h : a <:+: b) :
    pnorm nf a <:+: pnorm nf b := by
  obtain ⟨s, t, rfl⟩ := h
  simp only [pnorm, List.flatMap_append]
  exact ⟨s.flatMap nf, t.flatMap nf, rfl⟩

theorem rstrip_length_le (l : List Char) : (rstrip l).length ≤ l.length := by
  simpa [rstrip] using (List.dropWhile_sublist (l := l.reverse) (p := isSpc)).length_le

theorem lstrip_length_le (l : List Char) : (lstrip l).length ≤ l.length :=
  (List.dropWhile_sublist (l := l) (p := isSpc)).length_le

theorem pstrip_length_le (l : List Char) : (pstrip l).length ≤ l.length :=
  le_trans (lstrip_length_le _) (rstrip_length_le _)

/-! ## C1, C2: length bound and idempotence of `_enforce_length` -/

theorem try_drop_section_min (cfg : Cfg) (pre : List (List Char)) :
    ∀ (secs : List SectionBlock) (before out : List SectionBlock),
      try_drop_section cfg pre before secs = some out →
      cfg.min_chars ≤ (compose_from_units pre (before ++ out)).length := by
  intro secs
  induction secs with
  | nil => intro before out h; simp [try_drop_section] at h
  | cons s rest ih =>
    intro before out h
    rw [try_drop_section] at h
    cases hrec : try_drop_section cfg pre (before ++ [s]) rest with
    | some rest' =>
      rw [hrec] at h
      cases h
      have := ih (before ++ [s]) rest' hrec
      simpa [List.append_assoc] using this
    | none =>
      rw [hrec] at h
      by_cases h2 : 2 ≤ s.paragraphs.length
      · rw [if_pos h2] at h
        by_cases h3 : cfg.min_chars ≤ (compose_from_units pre
            (before ++ ⟨s.heading, s.paragraphs.dropLast⟩ :: rest)).length
        · rw [if_pos h3] at h
          cases h
          exact h3
        · rw [if_neg h3] at h
          cases h
      · rw [if_neg h2] at h
        cases h

theorem drop_loop_min (cfg : Cfg) :
    ∀ (fuel : Nat) (st : DState), cfg.min_chars ≤ st.cur.length →
      cfg.min_chars ≤ (drop_loop cfg fuel st).cur.length := by
  intro fuel
  induction fuel with
  | zero => intro st h; simpa [drop_loop] using h
  | succ n ih =>
    intro st h
    rw [drop_loop]
    split
    · exact h
    · cases htry : try_drop_section cfg st.pre [] st.secs with
      | some secs' =>
        refine ih _ ?_
        have := try_drop_section_min cfg st.pre st.secs [] secs' htry
        simpa using this
      | none =>
        by_cases h2 : 2 ≤ st.pre.length
        · rw [if_pos h2]
          by_cases h3 : cfg.min_chars ≤ (compose_from_units st.pre.dropLast st.secs).length
          · rw [if_pos h3]
            exact ih _ h3
          · rw [if_neg h3]
            exact h
        · rw [if_neg h2]
          exact h

theorem fallback_cut_length_le (cfg : Cfg) (cur : List Char) :
    (fallback_cut cfg cur).length ≤ cfg.max_chars := by
  unfold fallback_cut
  split
  · next hlen =>
    have hfb : (cur.take cfg.max_chars).length ≤ cfg.max_chars := by
      simp [List.length_take]
    split
    · split
      · refine le_trans (rstrip_length_le _) (le_trans ?_ hfb)
        simp [List.length_take]
      · exact le_trans (rstrip_length_le _) hfb
    · exact le_trans (rstrip_length_le _) hfb
  · next hlen => omega

/-- C1 (corrected): as stated the claim is false (see `c1_counterexample`:
with no section headings a bullet-block document is trimmed by
`_trim_paragraph_to`, which always keeps the first line, so the result can
exceed `maxChars`).  Amended: whenever shrinking is attempted (stripped input
longer than `maxChars`) and the document splits into at least one H2 section,
`_enforce_length` returns a string of length at most `maxChars`; and the
paragraph-drop pass never commits a document below `minChars` — from any
state at or above `minChars` it stays at or above `minChars` (drops that
would sink below the floor are rolled back). -/
theorem c1_amended (cfg : Cfg) (text : List Char)
    (h1 : cfg.max_chars < (pstrip text).length)
    (h2 : (split_into_units (pstrip text)).2 ≠ []) :
    (enforce_length cfg text).length ≤ cfg.max_chars ∧
      ∀ (fuel : Nat) (st : DState), cfg.min_chars ≤ st.cur.length →
        cfg.min_chars ≤ (drop_loop cfg fuel st).cur.length := by
  constructor
  · have hne : ¬ pstrip text = [] := by
      intro h; rw [h] at h1; simp at h1
    unfold enforce_length
    rw [if_neg hne, if_neg (by omega), if_neg h2]
    exact fallback_cut_length_le cfg _
  · exact fun fuel st h => drop_loop_min cfg fuel st h

/-- Witness for `c1_amended` at a concrete document. -/
theorem c1_witness :
    ((Cfg.mk 3 5 0 [] []).max_chars < (pstrip "## A\nbbbbbb".data).length ∧
      (split_into_units (pstrip "## A\nbbbbbb".data)).2 ≠ []) ∧
    ((enforce_length (Cfg.mk 3 5 0 [] []) "## A\nbbbbbb".data).length ≤
        (Cfg.mk 3 5 0 [] []).max_chars ∧
      ∀ (fuel : Nat) (st : DState),
        (Cfg.mk 3 5 0 [] []).min_chars ≤ st.cur.length →
        (Cfg.mk 3 5 0 [] []).min_chars ≤
          (drop_loop (Cfg.mk 3 5 0 [] []) fuel st).cur.length) :=
  ⟨⟨by decide, by decide⟩,
   c1_amended (Cfg.mk 3 5 0 [] []) "## A\nbbbbbb".data (by decide) (by decide)⟩

/-- Counterexample to C1 as stated: `- aaaaaaaa` (10 chars, no heading) with
`maxChars = 5`; shrinking is attempted but the result keeps all 10
characters. -/
theorem c1_counterexample :
    (Cfg.mk 3 5 0 [] []).max_chars < (pstrip "- aaaaaaaa".data).length ∧
      ¬ ((enforce_length (Cfg.mk 3 5 0 [] []) "- aaaaaaaa".data).length ≤
          (Cfg.mk 3 5 0 [] []).max_chars) := by decide

/-- C2 (corrected): as stated idempotence is false (see
`c2_counterexample`: the comma fallback of `_truncate_text` can leave a
trailing space, which the second application strips).  Amended: whenever the
stripped first output fits within `maxChars` — every path except the
no-section bullet-block trim — a second application of `_enforce_length`
only strips the first output: `enforce(enforce(text)) = strip(enforce(text))`;
in particular idempotence holds exactly on outputs that are already
stripped. -/
theorem c2_amended (cfg : Cfg) (text : List Char)
    (h : (pstrip (enforce_length cfg text)).length ≤ cfg.max_chars) :
    enforce_length cfg (enforce_length cfg text) = pstrip (enforce_length cfg text) ∧
      (pstrip (enforce_length cfg text) = enforce_length cfg text →
        enforce_length cfg (enforce_length cfg text) = enforce_length cfg text) := by
  have key : ∀ s : List Char, (pstrip s).length ≤ cfg.max_chars →
      enforce_length cfg s = pstrip s := by
    intro s hs
    unfold enforce_length
    by_cases h0 : pstrip s = []
    · rw [if_pos h0]
    · rw [if_neg h0, if_pos hs]
  exact ⟨key _ h, fun he => (key _ h).trans he⟩

/-- Witness for `c2_amended` at a concrete document. -/
theorem c2_witness :
    ((pstrip (enforce_length (Cfg.mk 0 4 0 [] []) "ab 、cd".data)).length ≤
        (Cfg.mk 0 4 0 [] []).max_chars) ∧
    (enforce_length (Cfg.mk 0 4 0 [] [])
        (enforce_length (Cfg.mk 0 4 0 [] []) "ab 、cd".data) =
      pstrip (enforce_length (Cfg.mk 0 4 0 [] []) "ab 、cd".data) ∧
      (pstrip (enforce_length (Cfg.mk 0 4 0 [] []) "ab 、cd".data) =
          enforce_length (Cfg.mk 0 4 0 [] []) "ab 、cd".data →
        enforce_length (Cfg.mk 0 4 0 [] [])
            (enforce_length (Cfg.mk 0 4 0 [] []) "ab 、cd".data) =
          enforce_length (Cfg.mk 0 4 0 [] []) "ab 、cd".data)) :=
  ⟨by decide, c2_amended (Cfg.mk 0 4 0 [] []) "ab 、cd".data (by decide)⟩

/-- Counterexample to C2 as stated: with `minChars = 0`, `maxChars = 4` the
input `ab 、cd` enforces to `ab ` (trailing space kept by
`rstrip("、")`), and a second application yields `ab`. -/
theorem c2_counterexample :
    enforce_length (Cfg.mk 0 4 0 [] [])
        (enforce_length (Cfg.mk 0 4 0 [] []) "ab 、cd".data) ≠
      enforce_length (Cfg.mk 0 4 0 [] []) "ab 、cd".data := by decide

/-! ## C8: quality gate vs section matcher -/

/-- C8 (corrected): as stated the equivalence is false (see
`c8_counterexample`: the gate never consults aliases).  Amended: the gate
accepts a body iff for every required label the NFKC-normalized canonical
label or its `## ` heading form occurs as a substring of the normalized body;
hence gate acceptance implies `section_present` for every required label, but
not conversely. -/
theorem c8_amended (nf : Char → List Char) (required : List (List Char))
    (body : List Char)
    (hne : ∀ sec ∈ required, ∀ v ∈ iter_section_variants sec, pnorm nf v ≠ []) :
    (validate_sections nf required body = true ↔
        ∀ sec ∈ required, pnorm nf sec <:+: pnorm nf body ∨
          pnorm nf ("## ".data ++ sec) <:+: pnorm nf body) ∧
      (validate_sections nf required body = true →
        ∀ sec ∈ required, section_present nf body sec = true) := by
  have hiff : validate_sections nf required body = true ↔
      ∀ sec ∈ required, pnorm nf sec <:+: pnorm nf body ∨
        pnorm nf ("## ".data ++ sec) <:+: pnorm nf body := by
    unfold validate_sections
    simp only [List.all_eq_true, Bool.or_eq_true, isSub_iff]
  refine ⟨hiff, fun hv sec hsec => ?_⟩
  have h1 := hiff.mp hv sec hsec
  have hmem : sec ∈ iter_section_variants sec := by
    unfold iter_section_variants; exact List.mem_cons_self _ _
  unfold section_present
  simp only [List.any_eq_true, Bool.and_eq_true, Bool.or_eq_true, isSub_iff,
    Bool.not_eq_true']
  exact ⟨sec, hmem, isEmpty_false_of_ne (hne sec hsec sec hmem), h1⟩

/-- Witness for `c8_amended` at a concrete body. -/
theorem c8_witness :
    (∀ sec ∈ ["背景と課題".data], ∀ v ∈ iter_section_variants sec, pnorm nfId v ≠ []) ∧
    ((validate_sections nfId ["背景と課題".data] "## 背景と課題\nx".data = true ↔
        ∀ sec ∈ ["背景と課題".data],
          pnorm nfId sec <:+: pnorm nfId "## 背景と課題\nx".data ∨
          pnorm nfId ("## ".data ++ sec) <:+: pnorm nfId "## 背景と課題\nx".data) ∧
      (validate_sections nfId ["背景と課題".data] "## 背景と課題\nx".data = true →
        ∀ sec ∈ ["背景と課題".data],
          section_present nfId "## 背景と課題\nx".data sec = true)) :=
  ⟨by decide, c8_amended nfId ["背景と課題".data] "## 背景と課題\nx".data (by decide)⟩

/-- Counterexample to C8 as stated: the body `## 背景` satisfies
`section_present` for the required label `背景と課題` (via the registered
alias `背景`) but `_validate_sections` rejects it. -/
theorem c8_counterexample :
    section_present nfId "## 背景\nx".data "背景と課題".data = true ∧
      validate_sections nfId ["背景と課題".data] "## 背景\nx".data = false := by decide

/-! ## C9: the lead is never populated -/

/-- Concrete configuration for the C9 instance (no required sections, large
`maxChars`). -/
def cfg9 : Cfg := ⟨0, 100000, 0, [], []⟩

/-- The article produced by the dry-run pipeline for keyword `A` under
`cfg9`. -/
def art9 : GeneratedArticle :=
  ⟨[], [], [], ensure_balanced_fences (enforce_length cfg9 (dummy_body cfg9 "A".data))⟩

/-- C9 (corrected): as stated the claim is false (see `c9_counterexample`:
the pipeline performs no lead extraction or synthesis anywhere — `generate`
always sets `lead=""`).  Amended: every successfully generated article has an
empty lead, its `sections` field is the configured required-section list, and
its references are empty. -/
theorem c9_amended (nf : Char → List Char) (cfg : Cfg) (kw summary : List Char)
    (a : GeneratedArticle) (h : generate nf cfg kw summary = Except.ok a) :
    a.lead = [] ∧ a.sections = cfg.required_sections ∧ a.references = [] := by
  unfold generate at h
  cases he : ensure_sections_present nf cfg none kw summary (dummy_body cfg kw) with
  | error e => rw [he] at h; cases h
  | ok t =>
    rw [he] at h
    cases h
    exact ⟨rfl, rfl, rfl⟩

/-- Witness for `c9_amended` at a concrete successful generation. -/
theorem c9_witness :
    art9.lead = [] ∧ art9.sections = cfg9.required_sections ∧ art9.references = [] :=
  c9_amended nfId cfg9 "A".data [] art9 rfl

/-- Counterexample to C9 as stated: a concrete dry-run generation succeeds
and its lead is the empty string, not a non-empty synthesized lead. -/
theorem c9_counterexample :
    (generate nfId cfg9 "A".data []).toOption = some art9 ∧ art9.lead = [] := by decide

/-! ## C6: semantics of `section_present` -/

/-- C6 (confirmed): `section_present` returns true iff the (normalized)
canonical label, a registered alias, or the `## `-prefixed form of one of
them occurs as a substring of the NFKC-normalized document (the hypothesis
that no variant normalizes to the empty string holds for NFKC on the
registered tables); consequently a document whose required headings appear
with registered aliases (`## ` + alias as a raw substring) passes
`section_present` without regeneration. -/
theorem c6_section_present (nf : Char → List Char) (body sec : List Char)
    (hne : ∀ v ∈ iter_section_variants sec, pnorm nf v ≠ []) :
    (section_present nf body sec = true ↔
        ∃ v ∈ iter_section_variants sec,
          pnorm nf v <:+: pnorm nf body ∨
            pnorm nf ("## ".data ++ v) <:+: pnorm nf body) ∧
      ∀ v ∈ iter_section_variants sec, ("## ".data ++ v) <:+: body →
        section_present nf body sec = true := by
  have hiff : section_present nf body sec = true ↔
      ∃ v ∈ iter_section_variants sec,
        pnorm nf v <:+: pnorm nf body ∨
          pnorm nf ("## ".data ++ v) <:+: pnorm nf body := by
    unfold section_present
    simp only [List.any_eq_true, Bool.and_eq_true, Bool.or_eq_true, isSub_iff,
      Bool.not_eq_true']
    constructor
    · rintro ⟨v, hv, _, h⟩
      exact ⟨v, hv, h⟩
    · rintro ⟨v, hv, h⟩
      exact ⟨v, hv, isEmpty_false_of_ne (hne v hv), h⟩
  refine ⟨hiff, fun v hv hraw => hiff.mpr ⟨v, hv, Or.inr (pnorm_mono nf hraw)⟩⟩

/-- Witness for `c6_section_present` on a document that uses only the
registered alias `背景` for the label `背景と課題`. -/
theorem c6_witness :
    (∀ v ∈ iter_section_variants "背景と課題".data, pnorm nfId v ≠ []) ∧
    ((section_present nfId "## 背景\nx".data "背景と課題".data = true ↔
        ∃ v ∈ iter_section_variants "背景と課題".data,
          pnorm nfId v <:+: pnorm nfId "## 背景\nx".data ∨
            pnorm nfId ("## ".data ++ v) <:+: pnorm nfId "## 背景\nx".data) ∧
      ∀ v ∈ iter_section_variants "背景と課題".data,
        ("## ".data ++ v) <:+: "## 背景\nx".data →
        section_present nfId "## 背景\nx".data "背景と課題".data = true) :=
  ⟨by decide, c6_section_present nfId "## 背景\nx".data "背景と課題".data (by decide)⟩

/-! ## C10: the paragraph-drop pass never empties a unit -/

theorem try_drop_section_forall₂ (cfg : Cfg) (pre : List (List Char)) :
    ∀ (secs : List SectionBlock) (before out : List SectionBlock),
      try_drop_section cfg pre before secs = some out →
      List.Forall₂ (fun s s' : SectionBlock =>
        s'.heading = s.heading ∧ (s.paragraphs ≠ [] → s'.paragraphs ≠ []))
        secs out := by
  intro secs
  induction secs with
  | nil => intro before out h; simp [try_drop_section] at h
  | cons s rest ih =>
    intro before out h
    rw [try_drop_section] at h
    cases hrec : try_drop_section cfg pre (before ++ [s]) rest with
    | some rest' =>
      rw [hrec] at h
      cases h
      exact List.Forall₂.cons ⟨rfl, id⟩ (ih (before ++ [s]) rest' hrec)
    | none =>
      rw [hrec] at h
      by_cases h2 : 2 ≤ s.paragraphs.length
      · rw [if_pos h2] at h
        by_cases h3 : cfg.min_chars ≤ (compose_from_units pre
            (before ++ ⟨s.heading, s.paragraphs.dropLast⟩ :: rest)).length
        · rw [if_pos h3] at h
          cases h
          refine List.Forall₂.cons ⟨rfl, fun _ => ?_⟩ (List.forall₂_same.mpr ?_)
          · refine List.ne_nil_of_length_pos ?_
            rw [List.length_dropLast]
            omega
          · exact fun x _ => ⟨rfl, id⟩
        · rw [if_neg h3] at h
          cases h
      · rw [if_neg h2] at h
        cases h

theorem forall₂_unit_trans {a b c : List SectionBlock}
    (hab : List.Forall₂ (fun s s' : SectionBlock =>
      s'.heading = s.heading ∧ (s.paragraphs ≠ [] → s'.paragraphs ≠ [])) a b)
    (hbc : List.Forall₂ (fun s s' : SectionBlock =>
      s'.heading = s.heading ∧ (s.paragraphs ≠ [] → s'.paragraphs ≠ [])) b c) :
    List.Forall₂ (fun s s' : SectionBlock =>
      s'.heading = s.heading ∧ (s.paragraphs ≠ [] → s'.paragraphs ≠ [])) a c := by
  induction hab generalizing c with
  | nil => cases hbc; exact List.Forall₂.nil
  | cons hR tR ih =>
    cases hbc with
    | cons hR' tR' =>
      exact List.Forall₂.cons ⟨hR'.1.trans hR.1, fun h => hR'.2 (hR.2 h)⟩ (ih tR')

/-- C10 (confirmed): the paragraph-drop pass preserves every heading, never
empties a section that had at least one paragraph (a last paragraph is popped
only from sections with at least two), and keeps a non-empty preface
non-empty (a preface paragraph is popped only when there are at least
two). -/
theorem c10_drop_invariant (cfg : Cfg) (fuel : Nat) (st : DState)
    (hpre : st.pre ≠ []) :
    List.Forall₂ (fun s s' : SectionBlock =>
        s'.heading = s.heading ∧ (s.paragraphs ≠ [] → s'.paragraphs ≠ []))
      st.secs (drop_loop cfg fuel st).secs ∧
    (drop_loop cfg fuel st).pre ≠ [] := by
  induction fuel generalizing st with
  | zero =>
    rw [drop_loop]
    exact ⟨List.forall₂_same.mpr (fun x _ => ⟨rfl, id⟩), hpre⟩
  | succ n ih =>
    rw [drop_loop]
    split
    · exact ⟨List.forall₂_same.mpr (fun x _ => ⟨rfl, id⟩), hpre⟩
    · cases htry : try_drop_section cfg st.pre [] st.secs with
      | some secs' =>
        have h2 := try_drop_section_forall₂ cfg st.pre st.secs [] secs' htry
        have h3 := ih ⟨st.pre, secs', compose_from_units st.pre secs'⟩ hpre
        exact ⟨forall₂_unit_trans h2 h3.1, h3.2⟩
      | none =>
        by_cases h2 : 2 ≤ st.pre.length
        · rw [if_pos h2]
          by_cases h3 : cfg.min_chars ≤ (compose_from_units st.pre.dropLast st.secs).length
          · rw [if_pos h3]
            refine ih ⟨st.pre.dropLast, st.secs,
              compose_from_units st.pre.dropLast st.secs⟩ ?_
            refine List.ne_nil_of_length_pos ?_
            rw [List.length_dropLast]
            omega
          · rw [if_neg h3]
            exact ⟨List.forall₂_same.mpr (fun x _ => ⟨rfl, id⟩), hpre⟩
        · rw [if_neg h2]
          exact ⟨List.forall₂_same.mpr (fun x _ => ⟨rfl, id⟩), hpre⟩

/-- Witness for `c10_drop_invariant` on a concrete state that the loop
actually shrinks. -/
theorem c10_witness :
    List.Forall₂ (fun s s' : SectionBlock =>
        s'.heading = s.heading ∧ (s.paragraphs ≠ [] → s'.paragraphs ≠ []))
      (DState.mk ["p".data] [⟨"## A".data, ["q1".data, "q2".data]⟩]
        "p\n\n## A\n\nq1\n\nq2".data).secs
      (drop_loop (Cfg.mk 1 8 0 [] []) 4
        (DState.mk ["p".data] [⟨"## A".data, ["q1".data, "q2".data]⟩]
          "p\n\n## A\n\nq1\n\nq2".data)).secs ∧
    (drop_loop (Cfg.mk 1 8 0 [] []) 4
        (DState.mk ["p".data] [⟨"## A".data, ["q1".data, "q2".data]⟩]
          "p\n\n## A\n\nq1\n\nq2".data)).pre ≠ [] :=
  c10_drop_invariant (Cfg.mk 1 8 0 [] []) 4
    (DState.mk ["p".data] [⟨"## A".data, ["q1".data, "q2".data]⟩]
      "p\n\n## A\n\nq1\n\nq2".data) (by decide)

/-! ## C4: the fallback hard cut -/

theorem filter_range_getLast?_some (p : Nat → Bool) :
    ∀ (n : Nat) (i : Nat), ((List.range n).filter p).getLast? = some i →
      p i = true ∧ i < n ∧ ∀ j, j < n → p j = true → j ≤ i := by
  intro n
  induction n with
  | zero => intro i h; simp [List.range_zero] at h
  | succ m ih =>
    intro i h
    rw [List.range_succ, List.filter_append] at h
    by_cases hp : p m = true
    · rw [List.filter_cons, if_pos hp, List.filter_nil, List.getLast?_concat] at h
      cases h
      exact ⟨hp, Nat.lt_succ_self m, fun j hj _ => by omega⟩
    · rw [List.filter_cons, if_neg hp, List.filter_nil, List.append_nil] at h
      obtain ⟨h1, h2, h3⟩ := ih i h
      refine ⟨h1, Nat.lt_succ_of_lt h2, fun j hj hpj => ?_⟩
      rcases Nat.lt_succ_iff_lt_or_eq.mp hj with hlt | rfl
      · exact h3 j hlt hpj
      · exact absurd hpj hp

theorem filter_range_getLast?_none (p : Nat → Bool) :
    ∀ n : Nat, ((List.range n).filter p).getLast? = none →
      ∀ j, j < n → ¬ p j = true := by
  intro n
  induction n with
  | zero => intro _ j hj; omega
  | succ m ih =>
    intro h j hj
    rw [List.range_succ, List.filter_append] at h
    by_cases hp : p m = true
    · rw [List.filter_cons, if_pos hp, List.filter_nil, List.getLast?_concat] at h
      cases h
    · rw [List.filter_cons, if_neg hp, List.filter_nil, List.append_nil] at h
      rcases Nat.lt_succ_iff_lt_or_eq.mp hj with hlt | rfl
      · exact ih h j hlt
      · exact hp

theorem rfindSeq_spec_some (pat l : List Char) (hne : pat ≠ []) (i : Nat)
    (h : rfindSeq pat l = some i) :
    occursAt pat l i ∧ ∀ j, occursAt pat l j → j ≤ i := by
  obtain ⟨h1, _, h3⟩ := filter_range_getLast?_some _ _ _ h
  refine ⟨of_decide_eq_true h1, fun j hj => ?_⟩
  by_cases hjn : j < l.length + 1
  · exact h3 j hjn (decide_eq_true hj)
  · exfalso
    have : l.drop j = [] := List.drop_eq_nil_iff.mpr (by omega)
    rw [occursAt, this] at hj
    exact hne (List.prefix_nil.mp hj)

theorem rfindSeq_spec_none (pat l : List Char)
    (h : rfindSeq pat l = none) : ∀ j, ¬ occursAt pat l j := by
  have hall := filter_range_getLast?_none _ _ h
  intro j hj
  by_cases hjn : j < l.length + 1
  · exact hall j hjn (decide_eq_true hj)
  · have : l.drop j = [] := List.drop_eq_nil_iff.mpr (by omega)
    rw [occursAt, this] at hj
    have hpat : pat = [] := List.prefix_nil.mp hj
    refine hall 0 (by omega) (decide_eq_true ?_)
    rw [occursAt, hpat, List.drop_zero]
    exact List.nil_prefix

/-- C4 (corrected): as stated the claim is false (see `c4_counterexample`:
the code searches only for a blank-line boundary `"\n\n"`, never for
sentence-terminal punctuation, and its threshold is `minChars`, not the
halfway point of the limit).  Amended: when the document is still over budget
the composed string is cut at `maxChars`; then, if the *last* blank-line
boundary of the cut window sits at or past `minChars`, the cut moves back to
it; otherwise the cut stays exactly at the limit.  Both results are
right-stripped and in all cases the final length is at most `maxChars`. -/
theorem c4_amended (cfg : Cfg) (cur : List Char) (h : cfg.max_chars < cur.length) :
    (fallback_cut cfg cur).length ≤ cfg.max_chars ∧
    ((∃ i, occursAt ['\n', '\n'] (cur.take cfg.max_chars) i ∧ cfg.min_chars ≤ i ∧
        (∀ j, occursAt ['\n', '\n'] (cur.take cfg.max_chars) j → j ≤ i) ∧
        fallback_cut cfg cur = rstrip ((cur.take cfg.max_chars).take i)) ∨
      ((∀ i, occursAt ['\n', '\n'] (cur.take cfg.max_chars) i → i < cfg.min_chars) ∧
        fallback_cut cfg cur = rstrip (cur.take cfg.max_chars))) := by
  refine ⟨fallback_cut_length_le cfg cur, ?_⟩
  unfold fallback_cut
  rw [if_pos h]
  cases hr : rfindSeq ['\n', '\n'] (cur.take cfg.max_chars) with
  | some c =>
    obtain ⟨hocc, hmax⟩ := rfindSeq_spec_some _ _ (by simp) c hr
    dsimp only
    by_cases hc : cfg.min_chars ≤ c
    · rw [if_pos hc]
      exact Or.inl ⟨c, hocc, hc, hmax, rfl⟩
    · rw [if_neg hc]
      exact Or.inr ⟨fun i hi => lt_of_le_of_lt (hmax i hi) (by omega), rfl⟩
  | none =>
    exact Or.inr ⟨fun i hi => absurd hi (rfindSeq_spec_none _ _ hr i), rfl⟩

/-- Witness for `c4_amended` at a concrete over-budget document. -/
theorem c4_witness :
    ((Cfg.mk 10 20 0 [] []).max_chars <
        ("## H\n\nabcdefg。hijklmnopqrstu".data).length) ∧
    ((fallback_cut (Cfg.mk 10 20 0 [] []) "## H\n\nabcdefg。hijklmnopqrstu".data).length ≤
        (Cfg.mk 10 20 0 [] []).max_chars ∧
      ((∃ i, occursAt ['\n', '\n']
            ("## H\n\nabcdefg。hijklmnopqrstu".data.take (Cfg.mk 10 20 0 [] []).max_chars) i ∧
          (Cfg.mk 10 20 0 [] []).min_chars ≤ i ∧
          (∀ j, occursAt ['\n', '\n']
              ("## H\n\nabcdefg。hijklmnopqrstu".data.take (Cfg.mk 10 20 0 [] []).max_chars) j →
            j ≤ i) ∧
          fallback_cut (Cfg.mk 10 20 0 [] []) "## H\n\nabcdefg。hijklmnopqrstu".data =
            rstrip (("## H\n\nabcdefg。hijklmnopqrstu".data.take
              (Cfg.mk 10 20 0 [] []).max_chars).take i)) ∨
        ((∀ i, occursAt ['\n', '\n']
              ("## H\n\nabcdefg。hijklmnopqrstu".data.take (Cfg.mk 10 20 0 [] []).max_chars) i →
            i < (Cfg.mk 10 20 0 [] []).min_chars) ∧
          fallback_cut (Cfg.mk 10 20 0 [] []) "## H\n\nabcdefg。hijklmnopqrstu".data =
            rstrip ("## H\n\nabcdefg。hijklmnopqrstu".data.take
              (Cfg.mk 10 20 0 [] []).max_chars)))) :=
  ⟨by decide, c4_amended (Cfg.mk 10 20 0 [] []) "## H\n\nabcdefg。hijklmnopqrstu".data
    (by decide)⟩

/-- Counterexample to C4 as stated: with `minChars = 10`, `maxChars = 20` the
document `## H\nabcdefg。hijklmnopqrstu` reaches the fallback; a
sentence-terminal `。` sits at index 13 of the cut window (at or past the
halfway point 10), yet the code cuts at the limit (keeping `hijklm`) instead
of at the punctuation boundary. -/
theorem c4_counterexample :
    enforce_length (Cfg.mk 10 20 0 [] []) "## H\nabcdefg。hijklmnopqrstu".data =
      "## H\n\nabcdefg。hijklm".data ∧
    occursAt ['。'] "## H\n\nabcdefg。hijklm".data 13 ∧
    20 / 2 ≤ 13 ∧
    enforce_length (Cfg.mk 10 20 0 [] []) "## H\nabcdefg。hijklmnopqrstu".data ≠
      "## H\n\nabcdefg。".data := by decide

/-! ## C7: the healer's hard-failure policy -/

/-- A configured rejected phrase hits the document: raw substring match, or
NFKC-normalized match (empty matches do not count), as in lines 281-289. -/
def phraseHit (nf : Char → List Char) (ph t : List Char) : Prop :=
  (ph ≠ [] ∧ ph <:+: t) ∨ (pnorm nf ph ≠ [] ∧ pnorm nf ph <:+: pnorm nf t)

theorem find_reject_none_iff (nf : Char → List Char) (text ntext : List Char) :
    ∀ phrases : List (List Char),
      (find_reject nf text ntext phrases = none ↔
        ∀ ph ∈ phrases,
          ¬ ((ph ≠ [] ∧ ph <:+: text) ∨
             (pnorm nf ph ≠ [] ∧ pnorm nf ph <:+: ntext))) := by
  intro phrases
  induction phrases with
  | nil => simp [find_reject]
  | cons ph rest ih =>
    rw [find_reject]
    by_cases h1 : ph ≠ [] ∧ isSub ph text = true
    · rw [if_pos h1]
      simp only [List.mem_cons]
      constructor
      · intro h; cases h
      · intro hall
        exact absurd (Or.inl ⟨h1.1, (isSub_iff ph text).mp h1.2⟩) (hall ph (Or.inl rfl))
    · rw [if_neg h1]
      by_cases h2 : pnorm nf ph ≠ [] ∧ isSub (pnorm nf ph) ntext = true
      · rw [if_pos h2]
        simp only [List.mem_cons]
        constructor
        · intro h; cases h
        · intro hall
          exact absurd (Or.inr ⟨h2.1, (isSub_iff _ ntext).mp h2.2⟩) (hall ph (Or.inl rfl))
      · rw [if_neg h2]
        rw [ih]
        simp only [List.mem_cons]
        constructor
        · intro hall ph' hph'
          rcases hph' with rfl | hmem
          · rintro (⟨ha, hb⟩ | ⟨ha, hb⟩)
            · exact h1 ⟨ha, (isSub_iff ph' text).mpr hb⟩
            · exact h2 ⟨ha, (isSub_iff _ ntext).mpr hb⟩
          · exact hall ph' hmem
        · exact fun hall ph' hmem => hall ph' (Or.inr hmem)

theorem find_reject_some (nf : Char → List Char) (text ntext : List Char) :
    ∀ (phrases : List (List Char)) (ph : List Char),
      find_reject nf text ntext phrases = some ph →
      ph ∈ phrases ∧
        ((ph ≠ [] ∧ ph <:+: text) ∨
         (pnorm nf ph ≠ [] ∧ pnorm nf ph <:+: ntext)) := by
  intro phrases
  induction phrases with
  | nil => intro ph h; simp [find_reject] at h
  | cons ph0 rest ih =>
    intro ph h
    rw [find_reject] at h
    by_cases h1 : ph0 ≠ [] ∧ isSub ph0 text = true
    · rw [if_pos h1] at h
      cases h
      exact ⟨List.mem_cons_self _ _, Or.inl ⟨h1.1, (isSub_iff _ text).mp h1.2⟩⟩
    · rw [if_neg h1] at h
      by_cases h2 : pnorm nf ph0 ≠ [] ∧ isSub (pnorm nf ph0) ntext = true
      · rw [if_pos h2] at h
        cases h
        exact ⟨List.mem_cons_self _ _, Or.inr ⟨h2.1, (isSub_iff _ ntext).mp h2.2⟩⟩
      · rw [if_neg h2] at h
        obtain ⟨hmem, hhit⟩ := ih ph h
        exact ⟨List.mem_cons_of_mem _ hmem, hhit⟩

theorem attempt_canonicalize_ntext (nf : Char → List Char) (text : List Char)
    (missing targets : List (List Char)) :
    (attempt_canonicalize_sections nf text missing targets).2.1 =
      pnorm nf (attempt_canonicalize_sections nf text missing targets).1 := by
  unfold attempt_canonicalize_sections
  by_cases h0 : text = []
  · rw [if_pos h0]
  · rw [if_neg h0]

theorem fill_missing_ntext (nf : Char → List Char) (cfg : Cfg) (oracle : Oracle)
    (kw summary text : List Char) (missing : List (List Char)) :
    (fill_missing_sections nf cfg oracle kw summary text (pnorm nf text) missing).2.1 =
      pnorm nf (fill_missing_sections nf cfg oracle kw summary text
        (pnorm nf text) missing).1 := by
  unfold fill_missing_sections
  by_cases h0 : missing = []
  · rw [if_pos h0]
  · rw [if_neg h0]

theorem heal_stage_ntext (nf : Char → List Char) (cfg : Cfg) (oracle : Option Oracle)
    (kw summary text : List Char) :
    (heal_stage nf cfg oracle kw summary text).2.1 =
      pnorm nf (heal_stage nf cfg oracle kw summary text).1 := by
  simp only [heal_stage]
  have hr1 : ∀ r1 : List Char × List Char × List (List Char),
      r1.2.1 = pnorm nf r1.1 →
      (match oracle with
        | some orc =>
          if r1.2.2 ≠ [] then
            fill_missing_sections nf cfg orc kw summary r1.1 r1.2.1 r1.2.2
          else r1
        | none => r1).2.1 =
      pnorm nf (match oracle with
        | some orc =>
          if r1.2.2 ≠ [] then
            fill_missing_sections nf cfg orc kw summary r1.1 r1.2.1 r1.2.2
          else r1
        | none => r1).1 := by
    intro r1 hinv
    cases oracle with
    | none => exact hinv
    | some orc =>
      dsimp only
      by_cases hm : r1.2.2 ≠ []
      · rw [if_pos hm, hinv]
        exact fill_missing_ntext nf cfg orc kw summary r1.1 r1.2.2
      · rw [if_neg hm]
        exact hinv
  by_cases hmiss : cfg.required_sections.filter
      (fun s => !(section_present nf (pnorm nf text) s)) ≠ []
  · rw [if_pos hmiss]
    exact hr1 _ (attempt_canonicalize_ntext nf text _ _)
  · rw [if_neg hmiss]
    exact hr1 _ rfl

/-- C7 (confirmed): `_ensure_sections_present` raises exactly when, after
canonicalization and (with a model available) regeneration, some required
section is still missing, or when a configured rejected phrase matches the
healed text raw or NFKC-normalized; in every other case it returns the
(possibly healed) text without error. -/
theorem c7_healer_policy (nf : Char → List Char) (cfg : Cfg) (oracle : Option Oracle)
    (kw summary text : List Char) :
    (ensure_sections_present nf cfg oracle kw summary text =
        Except.ok (heal_stage nf cfg oracle kw summary text).1 ↔
      ((heal_stage nf cfg oracle kw summary text).2.2 = [] ∧
        ∀ ph ∈ cfg.reject_phrases,
          ¬ phraseHit nf ph (heal_stage nf cfg oracle kw summary text).1)) ∧
    ((∃ e, ensure_sections_present nf cfg oracle kw summary text = Except.error e) ↔
      ((heal_stage nf cfg oracle kw summary text).2.2 ≠ [] ∨
        ∃ ph ∈ cfg.reject_phrases,
          phraseHit nf ph (heal_stage nf cfg oracle kw summary text).1)) := by
  have hnt := heal_stage_ntext nf cfg oracle kw summary text
  unfold ensure_sections_present
  set h := heal_stage nf cfg oracle kw summary text with hh
  have hHit : ∀ ph : List Char,
      ((ph ≠ [] ∧ ph <:+: h.1) ∨ (pnorm nf ph ≠ [] ∧ pnorm nf ph <:+: h.2.1)) ↔
        phraseHit nf ph h.1 := by
    intro ph
    rw [hnt]
    exact Iff.rfl
  by_cases hm : h.2.2 ≠ []
  · rw [if_pos hm]
    constructor
    · constructor
      · intro habs; cases habs
      · intro ⟨hc, _⟩; exact absurd hc hm
    · exact ⟨fun _ => Or.inl hm, fun _ => ⟨HealErr.missingSections h.2.2, rfl⟩⟩
  · rw [if_neg hm]
    cases hf : find_reject nf h.1 h.2.1 cfg.reject_phrases with
    | some ph =>
      obtain ⟨hmem, hhit⟩ := find_reject_some nf h.1 h.2.1 cfg.reject_phrases ph hf
      constructor
      · constructor
        · intro habs; cases habs
        · intro ⟨_, hall⟩
          exact absurd ((hHit ph).mp hhit) (hall ph hmem)
      · exact ⟨fun _ => Or.inr ⟨ph, hmem, (hHit ph).mp hhit⟩,
          fun _ => ⟨HealErr.rejectedPhrase ph, rfl⟩⟩
    | none =>
      have hnone := (find_reject_none_iff nf h.1 h.2.1 cfg.reject_phrases).mp hf
      constructor
      · refine ⟨fun _ => ⟨not_not.mp hm, fun ph hmem hhit => ?_⟩, fun _ => rfl⟩
        exact hnone ph hmem ((hHit ph).mpr hhit)
      · constructor
        · rintro ⟨e, he⟩; cases he
        · rintro (hbad | ⟨ph, hmem, hhit⟩)
          · exact absurd hbad hm
          · exact absurd ((hHit ph).mpr hhit) (hnone ph hmem)

/-! ## Lemmas for C3: strip primitives, joins, and running sums -/

theorem dropWhile_head_false {p : Char → Bool} :
    ∀ {l c cs}, List.dropWhile p l = c :: cs → p c = false := by
  intro l
  induction l with
  | nil => intro c cs h; cases h
  | cons a t ih =>
    intro c cs h
    rw [List.dropWhile_cons] at h
    by_cases hp : p a = true
    · rw [if_pos hp] at h
      exact ih h
    · rw [if_neg hp] at h
      cases h
      exact Bool.not_eq_true _ ▸ hp

theorem isEmpty_true_iff {α : Type} {l : List α} : l.isEmpty = true ↔ l = [] := by
  cases l <;> simp

/-- Dropping a trailing run (of characters satisfying `q`) commutes with a
`cons` whose head does not satisfy `q`. -/
theorem revDropTail_cons (q : Char → Bool) (c : Char) (y : List Char)
    (hc : q c = false) :
    ((c :: y).reverse.dropWhile q).reverse = c :: (y.reverse.dropWhile q).reverse := by
  rw [List.reverse_cons, List.dropWhile_append]
  by_cases he : (y.reverse.dropWhile q).isEmpty = true
  · rw [if_pos he]
    rw [isEmpty_true_iff.mp he]
    simp [List.dropWhile_cons, hc]
  · rw [if_neg he]
    rw [List.reverse_append]
    rfl

theorem rstrip_cons_of_not (c : Char) (y : List Char) (hc : isSpc c = false) :
    rstrip (c :: y) = c :: rstrip y :=
  revDropTail_cons isSpc c y hc

theorem rstripComma_cons_of_not (c : Char) (y : List Char) (hc : (c == '、') = false) :
    rstripComma (c :: y) = c :: rstripComma y :=
  revDropTail_cons _ c y hc

theorem pstrip_cons_of_not (c : Char) (y : List Char) (hc : isSpc c = false) :
    pstrip (c :: y) = c :: rstrip y := by
  rw [pstrip, rstrip_cons_of_not c y hc, lstrip, List.dropWhile_cons, hc]
  simp

theorem pstrip_head_not_space {l : List Char} {c : Char} {cs : List Char}
    (h : pstrip l = c :: cs) : isSpc c = false :=
  dropWhile_head_false h

theorem rstrip_append_spaces (l : List Char) :
    l = rstrip l ++ (l.reverse.takeWhile isSpc).reverse ∧
      ∀ c ∈ (l.reverse.takeWhile isSpc).reverse, isSpc c = true := by
  constructor
  · have h := List.takeWhile_append_dropWhile isSpc l.reverse
    calc l = l.reverse.reverse := by rw [List.reverse_reverse]
    _ = (List.takeWhile isSpc l.reverse ++ List.dropWhile isSpc l.reverse).reverse := by
          rw [h]
    _ = rstrip l ++ (l.reverse.takeWhile isSpc).reverse := by
          rw [List.reverse_append]; rfl
  · intro c hmem
    exact List.mem_takeWhile_imp (List.mem_reverse.mp hmem)

theorem pstrip_ne_nil_of_mem {c : Char} {l : List Char}
    (hmem : c ∈ l) (hc : isSpc c = false) : pstrip l ≠ [] := by
  intro hnil
  obtain ⟨hdec, hsp⟩ := rstrip_append_spaces l
  have hcr : c ∈ rstrip l := by
    rw [hdec] at hmem
    rcases List.mem_append.mp hmem with h | h
    · exact h
    · rw [hsp c h] at hc; cases hc
  have : ∀ x ∈ rstrip l, isSpc x = true := List.dropWhile_eq_nil_iff.mp hnil
  rw [this c hcr] at hc
  cases hc

theorem pstrip_eq_nil_of_all {l : List Char} (h : ∀ c ∈ l, isSpc c = true) :
    pstrip l = [] := by
  have h1 : rstrip l = [] := by
    rw [rstrip, List.reverse_eq_nil_iff, List.dropWhile_eq_nil_iff]
    exact fun x hx => h x (List.mem_reverse.mp hx)
  rw [pstrip, h1]
  rfl

theorem pstrip_ne_nil_exists {l : List Char} (h : pstrip l ≠ []) :
    ∃ c ∈ l, isSpc c = false := by
  by_contra hall
  push_neg at hall
  refine h (pstrip_eq_nil_of_all fun c hc => ?_)
  have := hall c hc
  cases hcs : isSpc c
  · exact absurd hcs this
  · rfl

/-- Total character count of a list of pieces. -/
def sumLen (ls : List (List Char)) : Nat := (ls.map List.length).sum

theorem sumLen_cons (x : List Char) (ls : List (List Char)) :
    sumLen (x :: ls) = x.length + sumLen ls := by
  simp [sumLen]

theorem sumLen_sublist_le {s l : List (List Char)} (h : s.Sublist l) :
    sumLen s ≤ sumLen l := by
  induction h with
  | slnil => exact le_refl _
  | cons a _ ih => rw [sumLen_cons]; omega
  | cons₂ a _ ih => rw [sumLen_cons, sumLen_cons]; omega

theorem length_le_sumLen_of_mem {x : List Char} {ls : List (List Char)}
    (h : x ∈ ls) : x.length ≤ sumLen ls := by
  induction ls with
  | nil => cases h
  | cons a t ih =>
    rw [sumLen_cons]
    rcases List.mem_cons.mp h with rfl | hmem
    · omega
    · have := ih hmem
      omega

theorem sumLen_reverse (ls : List (List Char)) : sumLen ls.reverse = sumLen ls := by
  simp [sumLen, List.map_reverse, List.sum_reverse]

theorem joinSep_ne_nil_cons (sep : List Char) (a : List Char) (l : List (List Char))
    (h : l ≠ []) : joinSep sep (a :: l) = a ++ sep ++ joinSep sep l := by
  cases l with
  | nil => exact absurd rfl h
  | cons b t => rfl

theorem joinSep_length_le_of_sublist (sep : List Char) :
    ∀ {s l : List (List Char)}, s.Sublist l →
      (joinSep sep s).length ≤ (joinSep sep l).length := by
  intro s l h
  induction h with
  | slnil => exact le_refl _
  | @cons s' l' a _ ih =>
    refine le_trans ih ?_
    cases l' with
    | nil => simp [joinSep]
    | cons b t =>
      rw [joinSep_ne_nil_cons sep a (b :: t) (by simp)]
      simp only [List.length_append]
      omega
  | @cons₂ s' l' a hsub ih =>
    cases s' with
    | nil =>
      cases l' with
      | nil => exact le_refl _
      | cons b t =>
        rw [joinSep_ne_nil_cons sep a (b :: t) (by simp)]
        simp [joinSep]
    | cons c u =>
      have hl' : l' ≠ [] := by
        intro hh
        rw [hh] at hsub
        cases hsub
      cases l' with
      | nil => exact absurd rfl hl'
      | cons b t =>
        rw [joinSep_ne_nil_cons sep a (c :: u) (by simp),
          joinSep_ne_nil_cons sep a (b :: t) (by simp)]
        simp only [List.length_append]
        omega

theorem splitChar_ne_nil (c : Char) : ∀ l : List Char, splitChar c l ≠ [] := by
  intro l
  induction l with
  | nil => simp [splitChar]
  | cons a rest ih =>
    rw [splitChar]
    cases hs : splitChar c rest with
    | nil => exact absurd hs ih
    | cons h t =>
      dsimp only
      by_cases ha : a = c
      · rw [if_pos ha]; simp
      · rw [if_neg ha]; simp

theorem joinSep_splitChar (c : Char) : ∀ l : List Char, joinSep [c] (splitChar c l) = l := by
  intro l
  induction l with
  | nil => rfl
  | cons a rest ih =>
    rw [splitChar]
    cases hs : splitChar c rest with
    | nil => exact absurd hs (splitChar_ne_nil c rest)
    | cons h t =>
      rw [hs] at ih
      dsimp only
      by_cases ha : a = c
      · rw [if_pos ha]
        rw [joinSep_ne_nil_cons [c] [] (h :: t) (by simp), ih, ha]
        rfl
      · rw [if_neg ha]
        cases t with
        | nil =>
          show a :: h = a :: rest
          rw [show joinSep [c] [h] = h from rfl] at ih
          rw [ih]
        | cons t0 ts =>
          rw [joinSep_ne_nil_cons [c] (a :: h) (t0 :: ts) (by simp)]
          rw [joinSep_ne_nil_cons [c] h (t0 :: ts) (by simp)] at ih
          simp only [List.cons_append]
          rw [ih]

theorem mem_joinSep {ch : Char} {x sep : List Char} :
    ∀ {ls : List (List Char)}, ch ∈ x → x ∈ ls → ch ∈ joinSep sep ls := by
  intro ls
  induction ls with
  | nil => intro _ h; cases h
  | cons a l ih =>
    intro hx hls
    rcases List.mem_cons.mp hls with rfl | hmem
    · cases l with
      | nil => exact hx
      | cons b t =>
        rw [joinSep_ne_nil_cons sep x (b :: t) (by simp)]
        exact List.mem_append_left _ (List.mem_append_left _ hx)
    · have hl : l ≠ [] := List.ne_nil_of_mem hmem
      cases l with
      | nil => exact absurd rfl hl
      | cons b t =>
        rw [joinSep_ne_nil_cons sep a (b :: t) (by simp)]
        exact List.mem_append_right _ (ih hx hmem)

theorem rstripComma_length_le (l : List Char) : (rstripComma l).length ≤ l.length := by
  simpa [rstripComma] using
    (List.dropWhile_sublist (l := l.reverse) (p := fun c => c == '、')).length_le

theorem truncate_text_length_le (x : List Char) (k : Nat) :
    (truncate_text x k).length ≤ x.length := by
  unfold truncate_text
  split
  · simp
  · split
    · exact le_refl _
    · next hk hlen =>
      have htake : (x.take k).length ≤ x.length := by simp [List.length_take]
      dsimp only
      split
      · refine le_trans ?_ htake
        simp [List.length_take]
      · split
        · split
          · refine le_trans (rstripComma_length_le _) (le_trans ?_ htake)
            simp [List.length_take]
          · exact le_trans (rstrip_length_le _) htake
        · exact le_trans (rstrip_length_le _) htake

/-! ## Lemmas for C3: the bullet branch -/

theorem bullet_trim_go_spec (t : Nat) :
    ∀ (lines acc : List (List Char)) (tot : Nat),
      ∃ s, bullet_trim_go t acc tot lines = acc ++ s ∧ s.Sublist lines := by
  intro lines
  induction lines with
  | nil =>
    exact fun acc tot => ⟨[], by simp [bullet_trim_go], List.nil_sublist _⟩
  | cons line rest ih =>
    intro acc tot
    rw [bullet_trim_go]
    by_cases hb : (pstrip line).isEmpty = true
    · rw [if_pos hb]
      by_cases ha : acc.isEmpty = true
      · rw [if_pos ha]
        obtain ⟨s, hs, hsub⟩ := ih acc tot
        exact ⟨s, hs, hsub.cons _⟩
      · rw [if_neg ha]
        obtain ⟨s, hs, hsub⟩ := ih (acc ++ [line]) tot
        exact ⟨line :: s, by rw [hs, List.append_assoc]; rfl, hsub.cons₂ _⟩
    · rw [if_neg hb]
      by_cases hc : (!acc.isEmpty && decide (t < tot + line.length)) = true
      · rw [if_pos hc]
        exact ⟨[], by simp, List.nil_sublist _⟩
      · rw [if_neg hc]
        by_cases hd : t ≤ tot + line.length
        · rw [if_pos hd]
          exact ⟨[line], rfl, (List.nil_sublist rest).cons₂ _⟩
        · rw [if_neg hd]
          obtain ⟨s, hs, hsub⟩ := ih (acc ++ [line]) (tot + line.length)
          exact ⟨line :: s, by rw [hs, List.append_assoc]; rfl, hsub.cons₂ _⟩

theorem bullet_trim_go_keeps (t : Nat) :
    ∀ (lines acc : List (List Char)) (tot : Nat),
      ((∃ l ∈ acc, pstrip l ≠ []) ∨ (acc = [] ∧ ∃ l ∈ lines, pstrip l ≠ [])) →
      ∃ l ∈ bullet_trim_go t acc tot lines, pstrip l ≠ [] := by
  intro lines
  induction lines with
  | nil =>
    intro acc tot h
    rw [bullet_trim_go]
    rcases h with h | ⟨_, l, hl, _⟩
    · exact h
    · cases hl
  | cons line rest ih =>
    intro acc tot h
    rw [bullet_trim_go]
    by_cases hb : (pstrip line).isEmpty = true
    · have hline : pstrip line = [] := isEmpty_true_iff.mp hb
      rw [if_pos hb]
      by_cases ha : acc.isEmpty = true
      · rw [if_pos ha]
        refine ih acc tot ?_
        rcases h with h | ⟨hacc, l, hl, hlp⟩
        · exact Or.inl h
        · rcases List.mem_cons.mp hl with rfl | hmem
          · exact absurd hline hlp
          · exact Or.inr ⟨hacc, l, hmem, hlp⟩
      · rw [if_neg ha]
        refine ih (acc ++ [line]) tot (Or.inl ?_)
        rcases h with ⟨l, hl, hlp⟩ | ⟨hacc, _⟩
        · exact ⟨l, List.mem_append_left _ hl, hlp⟩
        · rw [hacc] at ha
          exact absurd rfl ha
    · have hline : pstrip line ≠ [] := by
        intro hh
        rw [hh] at hb
        exact hb rfl
      rw [if_neg hb]
      by_cases hc : (!acc.isEmpty && decide (t < tot + line.length)) = true
      · rw [if_pos hc]
        rcases h with h | ⟨hacc, _⟩
        · exact h
        · rw [hacc] at hc
          simp at hc
      · rw [if_neg hc]
        by_cases hd : t ≤ tot + line.length
        · rw [if_pos hd]
          exact ⟨line, List.mem_append_right _ (List.mem_cons_self _ _), hline⟩
        · rw [if_neg hd]
          exact ih (acc ++ [line]) (tot + line.length)
            (Or.inl ⟨line, List.mem_append_right _ (List.mem_cons_self _ _), hline⟩)

/-! ## Lemmas for C3: the sentence branch -/

theorem split_sentences_go_out :
    ∀ (l : List Char) (skip : Bool) (out : List (List Char)) (acc : List Char),
      split_sentences_go skip out acc l =
        out.reverse ++ split_sentences_go skip [] acc l := by
  intro l
  induction l with
  | nil =>
    intro skip out acc
    simp [split_sentences_go]
  | cons c rest ih =>
    intro skip out acc
    simp only [split_sentences_go]
    by_cases h1 : (skip && isSpc c) = true
    · rw [if_pos h1, if_pos h1]
      exact ih true out acc
    · rw [if_neg h1, if_neg h1]
      by_cases h2 : ((match acc with | p :: _ => isTermChar p | [] => false) && isSpc c) = true
      · rw [if_pos h2, if_pos h2]
        rw [ih true (acc.reverse :: out) [], ih true [acc.reverse] []]
        simp
      · rw [if_neg h2, if_neg h2]
        exact ih false out (c :: acc)

theorem split_sentences_go_first :
    ∀ (l acc : List Char),
      ∃ s rest, split_sentences_go false [] acc l = (acc.reverse ++ s) :: rest := by
  intro l
  induction l with
  | nil =>
    intro acc
    exact ⟨[], [], by simp [split_sentences_go]⟩
  | cons c r ih =>
    intro acc
    simp only [split_sentences_go]
    rw [if_neg (by simp)]
    by_cases h2 : ((match acc with | p :: _ => isTermChar p | [] => false) && isSpc c) = true
    · rw [if_pos h2]
      refine ⟨[], split_sentences_go true [] [] r, ?_⟩
      rw [split_sentences_go_out r true [acc.reverse] []]
      simp
    · rw [if_neg h2]
      obtain ⟨s, rest', hs⟩ := ih (c :: acc)
      refine ⟨c :: s, rest', ?_⟩
      rw [hs]
      simp

theorem split_sentences_go_sumLen :
    ∀ (l : List Char) (skip : Bool) (out : List (List Char)) (acc : List Char),
      sumLen (split_sentences_go skip out acc l) ≤ sumLen out + acc.length + l.length := by
  intro l
  induction l with
  | nil =>
    intro skip out acc
    rw [split_sentences_go, sumLen_reverse, sumLen_cons, List.length_reverse]
    omega
  | cons c rest ih =>
    intro skip out acc
    simp only [split_sentences_go]
    by_cases h1 : (skip && isSpc c) = true
    · rw [if_pos h1]
      have := ih true out acc
      simp only [List.length_cons]
      omega
    · rw [if_neg h1]
      by_cases h2 : ((match acc with | p :: _ => isTermChar p | [] => false) && isSpc c) = true
      · rw [if_pos h2]
        have := ih true (acc.reverse :: out) []
        rw [sumLen_cons, List.length_reverse] at this
        simp only [List.length_nil] at this
        simp only [List.length_cons]
        omega
      · rw [if_neg h2]
        have := ih false out (c :: acc)
        simp only [List.length_cons] at this ⊢
        omega

theorem split_sentences_sumLen (text : List Char) :
    sumLen (split_sentences text) ≤ text.length := by
  unfold split_sentences
  refine le_trans (sumLen_sublist_le (List.filter_sublist _)) ?_
  have := split_sentences_go_sumLen text false [] []
  simpa [sumLen] using this

theorem split_sentences_head (c0 : Char) (r0 : List Char) (hc : isSpc c0 = false) :
    ∃ s rest, split_sentences (c0 :: r0) = (c0 :: s) :: rest := by
  unfold split_sentences
  have hstep : split_sentences_go false [] [] (c0 :: r0) =
      split_sentences_go false [] [c0] r0 := by
    simp only [split_sentences_go]
    rw [if_neg (by simp), if_neg (by simp)]
  rw [hstep]
  obtain ⟨s, rest, hs⟩ := split_sentences_go_first r0 [c0]
  rw [hs]
  simp only [List.reverse_cons, List.reverse_nil, List.nil_append,
    List.singleton_append]
  rw [List.filter_cons]
  have hkeep : (!(pstrip (c0 :: s)).isEmpty) = true := by
    rw [Bool.not_eq_true']
    exact isEmpty_false_of_ne (pstrip_ne_nil_of_mem (List.mem_cons_self _ _) hc)
  rw [if_pos hkeep]
  exact ⟨s, _, rfl⟩

theorem sentence_accum_sumLen (t : Nat) :
    ∀ (sents : List (List Char)) (idx tot : Nat),
      sumLen (sentence_accum t idx tot sents) ≤ sumLen sents := by
  intro sents
  induction sents with
  | nil =>
    intro idx tot
    simp [sentence_accum, sumLen]
  | cons s rest ih =>
    intro idx tot
    rw [sentence_accum]
    have hps := pstrip_length_le s
    by_cases h1 : pstrip s = []
    · rw [if_pos h1]
      have := ih (idx + 1) tot
      rw [sumLen_cons]
      omega
    · rw [if_neg h1]
      by_cases h2 : t ≤ tot + (pstrip s).length ∧ idx ≠ 0
      · rw [if_pos h2, sumLen_cons, sumLen_cons]
        have : sumLen ([] : List (List Char)) = 0 := rfl
        rw [this]
        omega
      · rw [if_neg h2, sumLen_cons, sumLen_cons]
        have := ih (idx + 1) (tot + (pstrip s).length)
        omega

theorem sentence_accum_cons_head (t idx tot : Nat) (x : List Char)
    (sents : List (List Char)) (hx : pstrip x ≠ []) :
    ∃ y, sentence_accum t idx tot (x :: sents) = pstrip x :: y := by
  rw [sentence_accum, if_neg hx]
  by_cases h2 : t ≤ tot + (pstrip x).length ∧ idx ≠ 0
  · rw [if_pos h2]
    exact ⟨[], rfl⟩
  · rw [if_neg h2]
    exact ⟨_, rfl⟩

theorem truncate_text_ne_nil (k : Nat) (c : Char) (cs : List Char)
    (hk : k ≠ 0) (hsp : isSpc c = false) (hcm : (c == '、') = false) :
    truncate_text (c :: cs) k ≠ [] := by
  unfold truncate_text
  rw [if_neg hk]
  by_cases hlen : (c :: cs).length ≤ k
  · rw [if_pos hlen]
    simp
  · rw [if_neg hlen]
    dsimp only
    have htr : (c :: cs).take k = c :: cs.take (k - 1) := by
      cases k with
      | zero => exact absurd rfl hk
      | succ n => rw [List.take_succ_cons]; rfl
    cases hfind : ['。', '．', '！', '？', '!', '?'].findSome? (fun p =>
        match rfindChar p ((c :: cs).take k) with
        | some idx => if k / 2 ≤ idx then some (idx + 1) else none
        | none => none) with
    | some k' =>
      dsimp only
      have hk' : k' ≠ 0 := by
        obtain ⟨a, _, ha⟩ := List.exists_of_findSome?_eq_some hfind
        cases hra : rfindChar a ((c :: cs).take k) with
        | some idx =>
          rw [hra] at ha
          dsimp only at ha
          by_cases hh : k / 2 ≤ idx
          · rw [if_pos hh] at ha
            cases ha
            omega
          · rw [if_neg hh] at ha
            cases ha
        | none =>
          rw [hra] at ha
          cases ha
      rw [htr]
      cases k' with
      | zero => exact absurd rfl hk'
      | succ n =>
        rw [List.take_succ_cons]
        simp
    | none =>
      dsimp only
      cases hci : rfindChar '、' ((c :: cs).take k) with
      | some ci =>
        dsimp only
        by_cases hh : k / 2 ≤ ci
        · rw [if_pos hh]
          have hspec := rfindSeq_spec_some ['、'] ((c :: cs).take k) (by simp) ci hci
          have hci0 : ci ≠ 0 := by
            intro h0
            rw [h0] at hspec
            have hocc := hspec.1
            rw [occursAt, List.drop_zero, htr] at hocc
            obtain ⟨u, hu⟩ := hocc
            rw [List.singleton_append] at hu
            have : c = '、' := by
              have := congrArg List.head? hu
              simpa using this.symm
            rw [this] at hcm
            simp at hcm
          rw [htr]
          cases ci with
          | zero => exact absurd rfl hci0
          | succ n =>
            rw [List.take_succ_cons, rstripComma_cons_of_not c _ hcm]
            simp
        · rw [if_neg hh, htr, rstrip_cons_of_not c _ hsp]
          simp
      | none =>
        dsimp only
        rw [htr, rstrip_cons_of_not c _ hsp]
        simp

/-! ## C3: guarantees of `_trim_paragraph_to` -/

/-- C3 (corrected): the length bound holds unconditionally, but as stated the
non-emptiness guarantee is false (see `c3_counterexample`: for an input whose
stripped text begins with the list comma `、`, the hard-truncation comma
fallback can strip the result to empty).  Amended: the output length never
exceeds the input length; and the output is non-empty whenever `targetLen ≥ 1`,
the stripped input is non-empty, and the stripped input does not begin with
`、`. -/
theorem c3_amended (p : List Char) (t : Nat) :
    (trim_paragraph_to p t).length ≤ p.length ∧
      (1 ≤ t → ∀ c cs, pstrip p = c :: cs → c ≠ '、' →
        trim_paragraph_to p t ≠ []) := by
  constructor
  · have htext := pstrip_length_le p
    unfold trim_paragraph_to
    by_cases h0 : pstrip p = []
    · rw [if_pos h0]
      exact htext
    · rw [if_neg h0]
      by_cases h1 : t = 0
      · rw [if_pos h1]
        simp
      · rw [if_neg h1]
        by_cases h2 : (pstrip p).length ≤ t
        · rw [if_pos h2]
          exact htext
        · rw [if_neg h2]
          by_cases h3 : is_bullet_block (pstrip p) = true
          · rw [if_pos h3]
            obtain ⟨s, hs, hsub⟩ := bullet_trim_go_spec t (splitChar '\n' (pstrip p)) [] 0
            rw [hs, List.nil_append]
            refine le_trans (pstrip_length_le _)
              (le_trans (joinSep_length_le_of_sublist ['\n'] hsub) ?_)
            rw [joinSep_splitChar]
            exact htext
          · rw [if_neg h3]
            cases hsp : split_sentences (pstrip p) with
            | nil => exact le_trans (truncate_text_length_le _ _) htext
            | cons s0 srest =>
              dsimp only
              have hfinal : ∀ c2 : List Char, c2.length ≤ p.length →
                  (if t < c2.length then truncate_text c2 t else c2).length ≤ p.length := by
                intro c2 hc2
                split
                · exact le_trans (truncate_text_length_le _ _) hc2
                · exact hc2
              refine hfinal _ ?_
              have hsum : sumLen (s0 :: srest) ≤ p.length := by
                rw [← hsp]
                exact le_trans (split_sentences_sumLen _) htext
              split
              · exact le_trans (pstrip_length_le s0)
                  (le_trans (length_le_sumLen_of_mem (List.mem_cons_self _ _)) hsum)
              · refine le_trans (pstrip_length_le _) ?_
                rw [List.length_flatten]
                exact le_trans (sentence_accum_sumLen t (s0 :: srest) 0 0) hsum
  · intro ht c cs hp hcm
    have hsp : isSpc c = false := pstrip_head_not_space hp
    have hcm' : (c == '、') = false := by
      simp only [beq_eq_false_iff_ne, ne_eq]
      exact hcm
    unfold trim_paragraph_to
    rw [if_neg (by rw [hp]; simp)]
    rw [if_neg (by omega)]
    by_cases h2 : (pstrip p).length ≤ t
    · rw [if_pos h2, hp]
      simp
    · rw [if_neg h2]
      by_cases h3 : is_bullet_block (pstrip p) = true
      · rw [if_pos h3]
        have hex : ∃ l ∈ splitChar '\n' (pstrip p), pstrip l ≠ [] := by
          simp only [is_bullet_block, Bool.and_eq_true] at h3
          have h4 := h3.1
          rw [Bool.not_eq_true'] at h4
          cases hflt : (splitChar '\n' (pstrip p)).filter (fun l => !(pstrip l).isEmpty) with
          | nil =>
            rw [hflt] at h4
            cases h4
          | cons l0 lt =>
            have hm : l0 ∈ (splitChar '\n' (pstrip p)).filter (fun l => !(pstrip l).isEmpty) := by
              rw [hflt]
              exact List.mem_cons_self _ _
            have hmf := List.mem_filter.mp hm
            refine ⟨l0, hmf.1, ?_⟩
            have h5 := hmf.2
            rw [Bool.not_eq_true'] at h5
            intro hh
            rw [hh] at h5
            cases h5
        obtain ⟨l0, hl0, hl0p⟩ := bullet_trim_go_keeps t _ [] 0 (Or.inr ⟨rfl, hex⟩)
        obtain ⟨cnb, hcnb, hcnbs⟩ := pstrip_ne_nil_exists hl0p
        exact pstrip_ne_nil_of_mem (mem_joinSep hcnb hl0) hcnbs
      · rw [if_neg h3, hp]
        obtain ⟨s, rest, hss⟩ := split_sentences_head c cs hsp
        rw [hss]
        dsimp only
        have hx : pstrip (c :: s) ≠ [] := pstrip_ne_nil_of_mem (List.mem_cons_self _ _) hsp
        obtain ⟨y, hy⟩ := sentence_accum_cons_head t 0 0 (c :: s) rest hx
        rw [hy]
        have hflat : (pstrip (c :: s) :: y).flatten =
            c :: (rstrip s ++ y.flatten) := by
          rw [List.flatten_cons, pstrip_cons_of_not c s hsp]
          rfl
        rw [hflat]
        rw [pstrip_cons_of_not c _ hsp]
        rw [if_neg (show ¬(c :: rstrip (rstrip s ++ y.flatten) = []) by simp)]
        by_cases hfin : t < (c :: rstrip (rstrip s ++ y.flatten)).length
        · rw [if_pos hfin]
          exact truncate_text_ne_nil t c (rstrip (rstrip s ++ y.flatten)) (by omega) hsp hcm'
        · rw [if_neg hfin]
          simp

/-- Witness for `c3_amended` at a concrete paragraph. -/
theorem c3_witness :
    (trim_paragraph_to "あい う。えお".data 3).length ≤ "あい う。えお".data.length ∧
      (1 ≤ 3 → ∀ c cs, pstrip "あい う。えお".data = c :: cs → c ≠ '、' →
        trim_paragraph_to "あい う。えお".data 3 ≠ []) :=
  c3_amended "あい う。えお".data 3

/-- Counterexample to C3 as stated: `trimTo("、、、", 1)` returns the empty
string although the target is positive and the input is not blank. -/
theorem c3_counterexample :
    trim_paragraph_to "、、、".data 1 = [] ∧ pstrip "、、、".data ≠ [] ∧ ¬ (1 : Nat) ≤ 0 := by
  decide

/-! ## Lemmas for C5: stripping is the identity on canonical text -/

theorem lstrip_cons_of_not (c : Char) (y : List Char) (hc : isSpc c = false) :
    lstrip (c :: y) = c :: y := by
  rw [lstrip, List.dropWhile_cons, hc]
  simp

theorem rstrip_eq_self_of_last {l : List Char} {c : Char}
    (h : l.getLast? = some c) (hc : isSpc c = false) : rstrip l = l := by
  rw [← List.head?_reverse] at h
  rw [rstrip]
  cases hrev : l.reverse with
  | nil =>
    rw [hrev] at h
    cases h
  | cons a r =>
    rw [hrev] at h
    have ha : a = c := by
      simpa using h
    subst ha
    rw [List.dropWhile_cons, hc]
    rw [if_neg (by simp)]
    rw [← hrev, List.reverse_reverse]

theorem pstrip_eq_self {l : List Char} {c d : Char}
    (hhd : l.head? = some c) (hc : isSpc c = false)
    (hlast : l.getLast? = some d) (hd : isSpc d = false) : pstrip l = l := by
  rw [pstrip, rstrip_eq_self_of_last hlast hd]
  cases l with
  | nil => cases hhd
  | cons a r =>
    have : a = c := by simpa using hhd
    rw [this]
    exact lstrip_cons_of_not c r hc

theorem mem_of_getLast?_eq {α : Type} {l : List α} {a : α}
    (h : l.getLast? = some a) : a ∈ l := by
  induction l with
  | nil => cases h
  | cons x t ih =>
    cases t with
    | nil =>
      have : x = a := by simpa using h
      simp [this]
    | cons y u =>
      rw [List.getLast?_cons_cons] at h
      exact List.mem_cons_of_mem _ (ih h)

theorem joinSep_head? (sep : List Char) (x : List Char) (xs : List (List Char))
    (hx : x ≠ []) : (joinSep sep (x :: xs)).head? = x.head? := by
  cases xs with
  | nil => rfl
  | cons y ys =>
    rw [joinSep_ne_nil_cons sep x (y :: ys) (by simp)]
    cases x with
    | nil => exact absurd rfl hx
    | cons a r => rfl

theorem joinSep_getLast? (sep : List Char) :
    ∀ (xs : List (List Char)) (x : List Char), (∀ p ∈ x :: xs, p ≠ []) →
      ∃ z, (x :: xs).getLast? = some z ∧
        (joinSep sep (x :: xs)).getLast? = z.getLast? := by
  intro xs
  induction xs with
  | nil =>
    intro x _
    exact ⟨x, rfl, rfl⟩
  | cons y ys ih =>
    intro x hall
    obtain ⟨z, hz1, hz2⟩ := ih y (fun p hp => hall p (List.mem_cons_of_mem _ hp))
    refine ⟨z, ?_, ?_⟩
    · rw [List.getLast?_cons_cons]
      exact hz1
    · rw [joinSep_ne_nil_cons sep x (y :: ys) (by simp), List.getLast?_append,
        List.getLast?_append, hz2]
      have hzne : z ≠ [] := by
        refine hall z ?_
        exact List.mem_cons_of_mem _ (mem_of_getLast?_eq hz1)
      cases hzl : z.getLast? with
      | none =>
        rw [List.getLast?_eq_none_iff] at hzl
        exact absurd hzl hzne
      | some w => rfl

theorem pstrip_joinSep_eq_self (sep : List Char) (x : List Char)
    (xs : List (List Char)) (hall : ∀ p ∈ x :: xs, p ≠ [])
    (hheads : ∀ p ∈ x :: xs, ∀ c cs, p = c :: cs → isSpc c = false)
    (hlasts : ∀ p ∈ x :: xs, ∀ c, p.getLast? = some c → isSpc c = false) :
    pstrip (joinSep sep (x :: xs)) = joinSep sep (x :: xs) := by
  have hx : x ≠ [] := hall x (List.mem_cons_self _ _)
  obtain ⟨a, r, hxc⟩ := List.exists_cons_of_ne_nil hx
  obtain ⟨z, hz1, hz2⟩ := joinSep_getLast? sep xs x hall
  have hzne : z ≠ [] := hall z (mem_of_getLast?_eq hz1)
  cases hzl : z.getLast? with
  | none =>
    rw [List.getLast?_eq_none_iff] at hzl
    exact absurd hzl hzne
  | some w =>
    refine pstrip_eq_self (c := a) (d := w) ?_ ?_ ?_ ?_
    · rw [joinSep_head? sep x xs hx, hxc]
      rfl
    · exact hheads x (List.mem_cons_self _ _) a r hxc
    · rw [hz2, hzl]
    · exact hlasts z (mem_of_getLast?_eq hz1) w hzl

/-! ## Lemmas for C5: line structure of the composed document -/

theorem splitChar_cons_sep (c : Char) (l : List Char) :
    splitChar c (c :: l) = [] :: splitChar c l := by
  rw [splitChar]
  cases hs : splitChar c l with
  | nil => exact absurd hs (splitChar_ne_nil c l)
  | cons h t =>
    dsimp only
    rw [if_pos rfl]

theorem splitChar_append_sep (c : Char) :
    ∀ (a b : List Char), splitChar c (a ++ c :: b) = splitChar c a ++ splitChar c b := by
  intro a
  induction a with
  | nil =>
    intro b
    rw [List.nil_append, splitChar_cons_sep]
    rfl
  | cons a0 a' ih =>
    intro b
    rw [List.cons_append, splitChar, ih b]
    cases hs : splitChar c a' with
    | nil => exact absurd hs (splitChar_ne_nil c a')
    | cons h t =>
      rw [List.cons_append]
      dsimp only
      rw [splitChar, hs]
      dsimp only
      by_cases ha : a0 = c
      · rw [if_pos ha, if_pos ha]
        rfl
      · rw [if_neg ha, if_neg ha]
        rfl

theorem splitChar_no_sep (c : Char) :
    ∀ (l : List Char), c ∉ l → splitChar c l = [l] := by
  intro l
  induction l with
  | nil => intro _; rfl
  | cons a r ih =>
    intro h
    rw [splitChar, ih (fun hm => h (List.mem_cons_of_mem _ hm))]
    dsimp only
    rw [if_neg (fun he : a = c => h (by rw [he]; exact List.mem_cons_self _ _))]

/-- Line decomposition of a blank-line-joined sequence of parts. -/
def linesOfParts : List (List Char) → List (List Char)
  | [] => [[]]
  | [x] => splitChar '\n' x
  | x :: y :: t => splitChar '\n' x ++ [] :: linesOfParts (y :: t)

theorem splitChar_joinSep_nl2 :
    ∀ (parts : List (List Char)) (x : List Char),
      splitChar '\n' (joinSep ['\n', '\n'] (x :: parts)) = linesOfParts (x :: parts) := by
  intro parts
  induction parts with
  | nil => intro x; rfl
  | cons y t ih =>
    intro x
    rw [joinSep_ne_nil_cons _ x (y :: t) (by simp)]
    have hshape : x ++ ['\n', '\n'] ++ joinSep ['\n', '\n'] (y :: t) =
        x ++ '\n' :: ('\n' :: joinSep ['\n', '\n'] (y :: t)) := by
      simp
    rw [hshape, splitChar_append_sep, splitChar_cons_sep, ih y]
    rfl

/-! ## C5: well-formed units and the scanner steps -/

/-- A paragraph line in canonical form: non-blank and not an H2 heading. -/
def goodLine (l : List Char) : Prop := lstrip l ≠ [] ∧ isH2 (lstrip l) = false

/-- A paragraph in canonical form (the §3 data-model invariant): non-empty,
stripped on both sides, every line non-blank and not a heading. -/
def goodPara (q : List Char) : Prop :=
  q ≠ [] ∧ lstrip q = q ∧ rstrip q = q ∧ ∀ l ∈ splitChar '\n' q, goodLine l

/-- A heading in canonical form: the single-line `##` shapes emitted by the
splitter, with no trailing whitespace. -/
def goodHead (h : List Char) : Prop :=
  rstrip h = h ∧ ('\n' ∉ h) ∧
    (h = "##".data ∨
      ("## ".data <+: h ∧ h.drop 3 ≠ [] ∧ lstrip (h.drop 3) = h.drop 3))

/-- Well-formed `(preface, sections)` units. -/
def wfUnits (pre : List (List Char)) (secs : List SectionBlock) : Prop :=
  (∀ q ∈ pre, goodPara q) ∧
    ∀ sb ∈ secs, goodHead sb.heading ∧ ∀ q ∈ sb.paragraphs, goodPara q

instance (l : List Char) : Decidable (goodLine l) := by
  unfold goodLine; infer_instance

instance (q : List Char) : Decidable (goodPara q) := by
  unfold goodPara goodLine; infer_instance

instance (h : List Char) : Decidable (goodHead h) := by
  unfold goodHead; infer_instance

instance (pre : List (List Char)) (secs : List SectionBlock) :
    Decidable (wfUnits pre secs) := by
  unfold wfUnits; infer_instance

theorem head_not_of_dropWhile_self {q : Char → Bool} {c : Char} {cs : List Char}
    (h : List.dropWhile q (c :: cs) = c :: cs) : q c = false := by
  cases hc : q c
  · rfl
  · exfalso
    rw [List.dropWhile_cons, hc, if_pos rfl] at h
    have h1 := congrArg List.length h
    have h2 := (List.dropWhile_sublist (l := cs) q).length_le
    simp only [List.length_cons] at h1
    omega

theorem head_not_space_of_lstrip_self {c : Char} {cs : List Char}
    (h : lstrip (c :: cs) = c :: cs) : isSpc c = false :=
  head_not_of_dropWhile_self h

theorem last_not_space_of_rstrip_self {p : List Char} {d : Char}
    (h : rstrip p = p) (hd : p.getLast? = some d) : isSpc d = false := by
  rw [← List.head?_reverse] at hd
  have h2 : p.reverse.dropWhile isSpc = p.reverse := by
    have h3 := congrArg List.reverse h
    rw [rstrip, List.reverse_reverse] at h3
    exact h3
  cases hrev : p.reverse with
  | nil => rw [hrev] at hd; cases hd
  | cons a r =>
    rw [hrev] at hd h2
    have ha : a = d := by simpa using hd
    subst ha
    exact head_not_of_dropWhile_self h2

theorem goodHead_facts {h : List Char} (hg : goodHead h) :
    h ≠ [] ∧ lstrip h = h ∧ isH2 h = true ∧
      (if lstrip (h.drop 2) = [] then "##".data
       else "## ".data ++ lstrip (h.drop 2)) = h := by
  rcases hg.2.2 with hshape | ⟨hpre, hne, hls⟩
  · subst hshape
    refine ⟨by decide, by decide, by decide, by decide⟩
  · obtain ⟨tail, htail⟩ := hpre
    have hsh : h = '#' :: '#' :: ' ' :: tail := by rw [← htail]; rfl
    have hdrop3 : h.drop 3 = tail := by rw [hsh]; rfl
    subst hsh
    refine ⟨by simp, lstrip_cons_of_not _ _ (by decide), ?_, ?_⟩
    · show ("##".data.isPrefixOf _ && !("###".data.isPrefixOf _)) = true
      have h1 : "##".data.isPrefixOf ('#' :: '#' :: ' ' :: tail) = true := by
        show (['#', '#'].isPrefixOf _) = true
        simp [List.isPrefixOf]
      have h2 : "###".data.isPrefixOf ('#' :: '#' :: ' ' :: tail) = false := by
        show (['#', '#', '#'].isPrefixOf _) = false
        simp [List.isPrefixOf]
      rw [h1, h2]
      rfl
    · rw [hdrop3] at hne hls
      have hdrop2 : ('#' :: '#' :: ' ' :: tail).drop 2 = ' ' :: tail := rfl
      rw [hdrop2]
      have hl2 : lstrip (' ' :: tail) = tail := by
        rw [lstrip, List.dropWhile_cons, if_pos (by decide)]
        exact hls
      rw [hl2, if_neg hne]
      rfl

/-- One unit of the recomposed document: a heading line or a paragraph. -/
inductive PItem where
  | para (q : List Char)
  | head (h : List Char)

/-- The raw text of a unit. -/
def partOf : PItem → List Char
  | .para q => q
  | .head h => h

/-- Canonicity of one unit. -/
def goodItem : PItem → Prop
  | .para q => goodPara q
  | .head h => goodHead h

/-- Append a flushed paragraph to the open unit (preface or last section), as
`flush_buffer` does. -/
def addPara (st : SplitSt) (q : List Char) : SplitSt :=
  match st.secsR with
  | [] => { st with pre := st.pre ++ [q] }
  | s :: r => { st with secsR := { s with paragraphs := s.paragraphs ++ [q] } :: r }

/-- Semantic effect of one unit on the scanner state. -/
def runItem (st : SplitSt) : PItem → SplitSt
  | .para q => addPara st q
  | .head h => { st with secsR := ⟨h, []⟩ :: st.secsR }

/-- Semantic effect of a unit sequence. -/
def runItems : SplitSt → List PItem → SplitSt
  | st, [] => st
  | st, it :: rest => runItems (runItem st it) rest

theorem splitFlush_nil_buf (st : SplitSt) (h : st.buf = []) : splitFlush st = st := by
  cases st with
  | mk pre secsR buf =>
    simp only at h
    subst h
    rfl

theorem splitGo_absorb :
    ∀ (ls : List (List Char)) (rest : List (List Char)) (st : SplitSt),
      (∀ l ∈ ls, goodLine l) →
      splitGo (ls ++ rest) st = splitGo rest { st with buf := st.buf ++ ls } := by
  intro ls
  induction ls with
  | nil =>
    intro rest st _
    simp
  | cons l ls' ih =>
    intro rest st hgood
    have hl := hgood l (List.mem_cons_self _ _)
    rw [List.cons_append]
    show splitGo (l :: (ls' ++ rest)) st = _
    simp only [splitGo]
    rw [if_neg (by rw [hl.2]; simp), if_neg hl.1]
    rw [ih rest _ (fun x hx => hgood x (List.mem_cons_of_mem _ hx))]
    simp only [List.append_assoc, List.singleton_append]

theorem splitGo_blank (rest : List (List Char)) (st : SplitSt) :
    splitGo ([] :: rest) st = splitGo rest (splitFlush st) := by
  simp only [splitGo]
  rw [if_neg (by decide), if_pos (show lstrip ([] : List Char) = [] from rfl)]

theorem splitFlush_para (st : SplitSt) (q : List Char) (hq : goodPara q)
    (hbuf : st.buf = splitChar '\n' q) :
    splitFlush st = addPara { st with buf := [] } q := by
  have hpar : pstrip (joinSep ['\n'] st.buf) = q := by
    rw [hbuf, joinSep_splitChar, pstrip, hq.2.2.1, hq.2.1]
  simp only [splitFlush, hpar]
  rw [if_neg hq.1]
  cases hs : st.secsR with
  | nil =>
    simp only [addPara, hs]
  | cons s r =>
    simp only [addPara, hs]

theorem splitGo_head_step (h : List Char) (rest : List (List Char)) (st : SplitSt)
    (hbuf : st.buf = []) (hg : goodHead h) :
    splitGo (h :: rest) st = splitGo rest ⟨st.pre, ⟨h, []⟩ :: st.secsR, []⟩ := by
  obtain ⟨hne, hls, hh2, hht⟩ := goodHead_facts hg
  simp only [splitGo]
  rw [hls, if_pos hh2, splitFlush_nil_buf st hbuf, hht]
  cases st with
  | mk pre secsR buf =>
    simp only at hbuf
    subst hbuf
    rfl

theorem splitGo_items :
    ∀ (items : List PItem) (st : SplitSt), st.buf = [] →
      (∀ it ∈ items, goodItem it) → items ≠ [] →
      splitGo (linesOfParts (items.map partOf)) st = runItems st items := by
  intro items
  induction items with
  | nil => intro st _ _ hne; exact absurd rfl hne
  | cons it rest ih =>
    intro st hbuf hgood _
    have hit : goodItem it := hgood it (List.mem_cons_self _ _)
    cases rest with
    | nil =>
      cases it with
      | para q =>
        have hq : goodPara q := hit
        show splitGo (splitChar '\n' q) st = runItems st [PItem.para q]
        have habs := splitGo_absorb (splitChar '\n' q) [] st hq.2.2.2
        rw [List.append_nil] at habs
        rw [habs]
        show splitFlush { st with buf := st.buf ++ splitChar '\n' q } =
          runItems st [PItem.para q]
        rw [splitFlush_para _ q hq (by rw [hbuf]; rfl)]
        show addPara { st with buf := [] } q = addPara st q
        rw [show ({ st with buf := [] } : SplitSt) = st by
          cases st; simp only at hbuf; subst hbuf; rfl]
      | head h =>
        have hg : goodHead h := hit
        show splitGo (splitChar '\n' h) st = runItems st [PItem.head h]
        rw [splitChar_no_sep '\n' h hg.2.1]
        rw [show ([h] : List (List Char)) = h :: [] from rfl,
          splitGo_head_step h [] st hbuf hg]
        show splitFlush _ = _
        rw [splitFlush_nil_buf _ rfl]
        show _ = runItem st (PItem.head h)
        cases st
        simp only at hbuf
        subst hbuf
        rfl
    | cons it2 rest' =>
      have hbufs : ∀ st' : SplitSt, st'.buf = [] →
          splitGo (linesOfParts ((it2 :: rest').map partOf)) st' =
            runItems st' (it2 :: rest') :=
        fun st' hb => ih st' hb
          (fun x hx => hgood x (List.mem_cons_of_mem _ hx)) (by simp)
      cases it with
      | para q =>
        have hq : goodPara q := hit
        show splitGo (splitChar '\n' q ++ [] :: linesOfParts ((it2 :: rest').map partOf)) st =
          runItems st (PItem.para q :: it2 :: rest')
        rw [splitGo_absorb (splitChar '\n' q) _ st hq.2.2.2]
        rw [splitGo_blank]
        rw [splitFlush_para _ q hq (by rw [hbuf]; rfl)]
        have haddbuf : (addPara { st with buf := [] } q).buf = [] := by
          cases hs : st.secsR <;> simp [addPara, hs]
        rw [hbufs _ haddbuf]
        show runItems (addPara { st with buf := [] } q) (it2 :: rest') =
          runItems (addPara st q) (it2 :: rest')
        rw [show ({ st with buf := [] } : SplitSt) = st by
          cases st; simp only at hbuf; subst hbuf; rfl]
      | head h =>
        have hg : goodHead h := hit
        show splitGo (splitChar '\n' h ++ [] :: linesOfParts ((it2 :: rest').map partOf)) st =
          runItems st (PItem.head h :: it2 :: rest')
        rw [splitChar_no_sep '\n' h hg.2.1]
        rw [show ([h] : List (List Char)) ++ [] :: linesOfParts ((it2 :: rest').map partOf) =
          h :: [] :: linesOfParts ((it2 :: rest').map partOf) from rfl]
        rw [splitGo_head_step h _ st hbuf hg, splitGo_blank,
          splitFlush_nil_buf _ rfl]
        show _ = runItems (runItem st (PItem.head h)) (it2 :: rest')
        have hst : runItem st (PItem.head h) =
            (⟨st.pre, ⟨h, []⟩ :: st.secsR, []⟩ : SplitSt) := by
          cases st
          simp only at hbuf
          subst hbuf
          rfl
        rw [hst]
        exact hbufs ⟨st.pre, ⟨h, []⟩ :: st.secsR, []⟩ rfl

theorem runItems_paras_nil (qs : List (List Char)) :
    ∀ st : SplitSt, st.secsR = [] →
      runItems st (qs.map PItem.para) = ⟨st.pre ++ qs, [], st.buf⟩ := by
  induction qs with
  | nil =>
    intro st hs
    cases st
    simp only at hs
    subst hs
    simp [runItems]
  | cons q qs' ih =>
    intro st hs
    show runItems (runItem st (PItem.para q)) (qs'.map PItem.para) = _
    have hstep : runItem st (PItem.para q) = { st with pre := st.pre ++ [q] } := by
      simp [runItem, addPara, hs]
    rw [hstep, ih _ (by simp [hs])]
    simp

theorem runItems_paras_cons (qs : List (List Char)) :
    ∀ (st : SplitSt) (s : SectionBlock) (r : List SectionBlock), st.secsR = s :: r →
      runItems st (qs.map PItem.para) =
        ⟨st.pre, ⟨s.heading, s.paragraphs ++ qs⟩ :: r, st.buf⟩ := by
  induction qs with
  | nil =>
    intro st s r hs
    cases st
    simp only at hs
    subst hs
    simp [runItems]
  | cons q qs' ih =>
    intro st s r hs
    show runItems (runItem st (PItem.para q)) (qs'.map PItem.para) = _
    have hstep : runItem st (PItem.para q) =
        { st with secsR := ⟨s.heading, s.paragraphs ++ [q]⟩ :: r } := by
      simp [runItem, addPara, hs]
    rw [hstep, ih _ ⟨s.heading, s.paragraphs ++ [q]⟩ r (by simp)]
    simp

theorem runItems_append (a b : List PItem) :
    ∀ st : SplitSt, runItems st (a ++ b) = runItems (runItems st a) b := by
  induction a with
  | nil => intro st; rfl
  | cons x a' ih => intro st; exact ih (runItem st x)

/-- The unit sequence of one section. -/
def itemsOfSection (s : SectionBlock) : List PItem :=
  PItem.head s.heading :: s.paragraphs.map PItem.para

theorem runItems_sections (secs : List SectionBlock) :
    ∀ st : SplitSt,
      runItems st (secs.flatMap itemsOfSection) =
        ⟨st.pre, secs.reverse ++ st.secsR, st.buf⟩ := by
  induction secs with
  | nil =>
    intro st
    cases st
    simp [runItems]
  | cons s rest ih =>
    intro st
    rw [List.flatMap_cons, runItems_append]
    have h1 : runItems st (itemsOfSection s) =
        ⟨st.pre, s :: st.secsR, st.buf⟩ := by
      show runItems (runItem st (PItem.head s.heading)) (s.paragraphs.map PItem.para) = _
      rw [show runItem st (PItem.head s.heading) =
          { st with secsR := ⟨s.heading, []⟩ :: st.secsR } from rfl]
      rw [runItems_paras_cons s.paragraphs _ ⟨s.heading, []⟩ st.secsR (by simp)]
      simp
    rw [h1, ih]
    simp

theorem goodPart_conditions {p : List Char} (h : goodPara p ∨ goodHead p) :
    p ≠ [] ∧ (∀ c cs, p = c :: cs → isSpc c = false) ∧
      (∀ c, p.getLast? = some c → isSpc c = false) := by
  rcases h with hq | hg
  · refine ⟨hq.1, ?_, ?_⟩
    · intro c cs hp
      apply head_not_space_of_lstrip_self
      rw [← hp]
      exact hq.2.1
    · intro c hlast
      exact last_not_space_of_rstrip_self hq.2.2.1 hlast
  · obtain ⟨hne, hls, _, _⟩ := goodHead_facts hg
    refine ⟨hne, ?_, ?_⟩
    · intro c cs hp
      apply head_not_space_of_lstrip_self
      rw [← hp]
      exact hls
    · intro c hlast
      exact last_not_space_of_rstrip_self hg.1 hlast

theorem map_partOf_units (pre : List (List Char)) (secs : List SectionBlock) :
    ((pre.map PItem.para ++ secs.flatMap itemsOfSection).map partOf) =
      pre ++ secs.flatMap (fun s => s.heading :: s.paragraphs) := by
  rw [List.map_append, List.map_flatMap]
  congr 1
  · rw [List.map_map]
    exact List.map_id _
  · refine congrArg _ (funext fun s => ?_)
    show partOf (PItem.head s.heading) :: (s.paragraphs.map PItem.para).map partOf =
      s.heading :: s.paragraphs
    rw [List.map_map]
    exact congrArg _ (List.map_id _)

/-- C5 (confirmed): splitting and recomposing are mutually inverse on
canonical units — for every well-formed `(preface, sections)` pair (the §3
data-model invariant: stripped non-blank paragraphs without heading lines,
single-line `##` headings), `split(compose(p, s)) = (p, s)` exactly; in
particular every original paragraph survives in its original unit, in
order. -/
theorem c5_roundtrip (pre : List (List Char)) (secs : List SectionBlock)
    (hwf : wfUnits pre secs) :
    split_into_units (compose_from_units pre secs) = (pre, secs) := by
  cases hparts : pre ++ secs.flatMap (fun s => s.heading :: s.paragraphs) with
  | nil =>
    have hpre : pre = [] := by
      cases pre with
      | nil => rfl
      | cons a t => simp at hparts
    have hsecs : secs = [] := by
      cases secs with
      | nil => rfl
      | cons s t =>
        rw [hpre] at hparts
        simp [List.flatMap_cons] at hparts
    subst hpre
    subst hsecs
    decide
  | cons x xs =>
    have hgoods : ∀ p ∈ x :: xs, goodPara p ∨ goodHead p := by
      rw [← hparts]
      intro p hp
      rcases List.mem_append.mp hp with h | h
      · exact Or.inl (hwf.1 p h)
      · obtain ⟨s, hs, hps⟩ := List.mem_flatMap.mp h
        rcases List.mem_cons.mp hps with rfl | hmem
        · exact Or.inr ((hwf.2 s hs).1)
        · exact Or.inl ((hwf.2 s hs).2 p hmem)
    have hphase1 : pstrip (joinSep "\n\n".data (x :: xs)) = joinSep "\n\n".data (x :: xs) :=
      pstrip_joinSep_eq_self _ x xs
        (fun p hp => (goodPart_conditions (hgoods p hp)).1)
        (fun p hp => (goodPart_conditions (hgoods p hp)).2.1)
        (fun p hp => (goodPart_conditions (hgoods p hp)).2.2)
    have hcomp : compose_from_units pre secs = joinSep "\n\n".data (x :: xs) := by
      unfold compose_from_units
      rw [hparts]
      exact hphase1
    have hitems : (pre.map PItem.para ++ secs.flatMap itemsOfSection).map partOf = x :: xs := by
      rw [map_partOf_units]
      exact hparts
    have hine : pre.map PItem.para ++ secs.flatMap itemsOfSection ≠ [] := by
      intro hh
      rw [hh] at hitems
      cases hitems
    have hgooditems : ∀ it ∈ pre.map PItem.para ++ secs.flatMap itemsOfSection,
        goodItem it := by
      intro it hit
      rcases List.mem_append.mp hit with h | h
      · obtain ⟨q, hq, rfl⟩ := List.mem_map.mp h
        exact hwf.1 q hq
      · obtain ⟨s, hs, hps⟩ := List.mem_flatMap.mp h
        rcases List.mem_cons.mp hps with rfl | hmem
        · exact (hwf.2 s hs).1
        · obtain ⟨q, hq, rfl⟩ := List.mem_map.mp hmem
          exact (hwf.2 s hs).2 q hq
    simp only [split_into_units]
    rw [hcomp, hphase1]
    rw [show "\n\n".data = ['\n', '\n'] from rfl, splitChar_joinSep_nl2 xs x]
    rw [← hitems]
    rw [splitGo_items (pre.map PItem.para ++ secs.flatMap itemsOfSection)
      ⟨[], [], []⟩ rfl hgooditems hine]
    rw [runItems_append, runItems_paras_nil pre ⟨[], [], []⟩ rfl]
    rw [runItems_sections secs ⟨[] ++ pre, [], []⟩]
    simp

/-- Witness for `c5_roundtrip` on a concrete well-formed document. -/
theorem c5_witness :
    wfUnits ["p1".data] [⟨"## A".data, ["x1\nx2".data, "y".data]⟩] ∧
      split_into_units (compose_from_units ["p1".data]
        [⟨"## A".data, ["x1\nx2".data, "y".data]⟩]) =
        (["p1".data], [⟨"## A".data, ["x1\nx2".data, "y".data]⟩]) :=
  ⟨by decide, c5_roundtrip ["p1".data] [⟨"## A".data, ["x1\nx2".data, "y".data]⟩]
    (by decide)⟩
